import Mathlib

/-!
Verification of the crawl-loop / extraction / option-resolution core of
`node-programmable-downloader` (`src/index.ts`).

The model below is a shallow embedding of the `ProgrammableDownloader` class.
The external collaborators (HTTP fetching via axios, HTML parsing and CSS
selector evaluation via cheerio, the filesystem, `decodeURI`, and the
underscore template engine) are modelled as parameters of an `Env`
structure; the per-extractor extraction pipelines `_getMetadata`,
`_getFileUrls` and `_getPageUrls` (lines 150-231), whose output is a pure
function of the fetched document and hence of the page URL, are modelled as
per-extractor oracle functions returning `Except` (a thrown JS exception is
an `Except.error`).  Everything the claims are about — the queue and
visited-set management of `run`/`_processPage` (lines 96-147), the shared
mutable metadata objects (lines 110-111, 133, 141, modelled with an explicit
store of objects addressed by index, so that JS reference aliasing is
visible), `_saveFiles`/`_getSaveDir`/`_getFilename` (lines 234-295) and
`getOption` (lines 297-314) — is translated directly from the source.
Filesystem and network actions are recorded in an effect trace.

JS strings are modelled via `List Char` primitives so that all definitions
reduce; machine-irrelevant logging calls are either dropped or recorded as
effects where a claim needs them.
-/

/-- One JS character-split, modelling `String.prototype.split` with a
one-character separator: `splitChar c l` never returns `[]`, and keeps
empty segments exactly as JS does. -/
def splitChar (c : Char) : List Char → List (List Char)
  | [] => [[]]
  | x :: xs =>
    if x = c then [] :: splitChar c xs
    else
      match splitChar c xs with
      | h :: t => (x :: h) :: t
      | [] => [[x]]

/-- Model of `s.split(c)` on Lean strings. -/
def jsSplit (c : Char) (s : String) : List String :=
  (splitChar c s.toList).map String.mk

/-- Join a list of strings with `_`, modelling `Array.prototype.join('_')`. -/
def interUnd (l : List String) : String :=
  String.mk (List.intercalate ['_'] (l.map String.toList))

/-- Model of `domainAndPath.split('/').slice(-nSlices)` — JS `slice` with a negated
argument: `slice(-n)` keeps the last `n` elements for `n > 0`, and
`slice(-0) = slice(0)` keeps everything. -/
def jsSliceNeg (n : Int) (l : List String) : List String :=
  if n ≤ 0 then l.drop (min (-n).toNat l.length)
  else l.drop (l.length - min n.toNat l.length)

/-- Model of `fileUrl.replace(/^https?:\/\//, '')` — strip one leading scheme prefix. -/
def stripScheme (s : String) : String :=
  let cs := s.toList
  if ("https://".toList).isPrefixOf cs then String.mk (cs.drop 8)
  else if ("http://".toList).isPrefixOf cs then String.mk (cs.drop 7)
  else s

/-- Model of `.replace(/\?.*$/, '')` — drop everything from the first `?` on
(for URLs without control characters this is exactly the regex). -/
def stripQuery (s : String) : String :=
  String.mk (s.toList.takeWhile (fun c => c ≠ '?'))

/-- Model of `.replace(/[/%*:|"<>]/g, '-')` in `_getSaveDir`. -/
def sanitize (s : String) : String :=
  String.mk (s.toList.map (fun c => if ("/%*:|\"<>".toList).contains c then '-' else c))

/-- A JS metadata value: `string | string[] | Record of string to string`,
as produced by `_getMetadata`. -/
inductive MetaVal where
  | s (v : String)
  | list (vs : List String)
  | table (kvs : List (String × String))
deriving DecidableEq, Repr

/-- A JS metadata object, insertion-ordered. -/
abbrev Obj := List (String × MetaVal)

/-- Property read on a metadata object. -/
def objLookup (m : Obj) (k : String) : Option MetaVal :=
  m.lookup k

/-- JS property assignment `m[k] = v`: overwrite in place when the key
exists (keeping insertion order), append otherwise. -/
def objSet (m : Obj) (k : String) (v : MetaVal) : Obj :=
  if m.any (fun p => p.1 == k) then m.map (fun p => if p.1 == k then (k, v) else p)
  else m ++ [(k, v)]

/-- Model of `Object.assign(copy-of-m, e)`: assign every field of `e` in order on top
of `m`; this is the value of `Object.assign(\x7b\x7d, metadata, extracted)`
at line 133. -/
def objAssign (m e : Obj) : Obj :=
  e.foldl (fun acc kv => objSet acc kv.1 kv.2) m

/-- Untyped JS values as stored inside option objects. -/
inductive JSValue where
  | vUndefined
  | vNull
  | vBool (b : Bool)
  | vNum (n : Int)
  | vStr (s : String)
  | vArr (xs : List JSValue)
  | vObj (fs : List (String × JSValue))

/-- JS property access `p[key]` as used by `dig` (on a non-object or a
missing key the result is `undefined`; `dig` tests for null beforehand). -/
def getProp (v : JSValue) (key : String) : JSValue :=
  match v with
  | .vObj fs => (fs.lookup key).getD JSValue.vUndefined
  | _ => JSValue.vUndefined

/-- Model of `p == null` (abstract equality: true for both `null` and `undefined`). -/
def isNullish : JSValue → Bool
  | .vUndefined => true
  | .vNull => true
  | _ => false

/-- The `dig` closure inside `getOption` (lines 298-310): walk the key path,
returning `undefined` as soon as the current value is nullish. -/
def dig (obj : JSValue) (keys : List String) : JSValue :=
  match keys with
  | [] => obj
  | key :: rest => if isNullish obj then JSValue.vUndefined else dig (getProp obj key) rest

/-- Model of `getOption` (lines 297-314): dig in the currently active extractor's
option override (the caller passes `currentExtractor?.options ?? null`),
falling back with `??` — i.e. when the override dig is nullish — to the
same path in the merged global options. -/
def getOption (curOpts globalOpts : JSValue) (path : List String) : JSValue :=
  let fromCur := dig curOpts path
  if isNullish fromCur then dig globalOpts path else fromCur

/-- JS strict comparison `v !== true` is the negation of this. -/
def isTrue : JSValue → Bool
  | .vBool b => b
  | _ => false

/-- Numeric coercion at the `nameLevel` use site (always a number for
well-typed option objects; the defaults guarantee the fallback). -/
def asInt : JSValue → Int
  | .vNum n => n
  | _ => 0

/-- String coercion at `saveDir.root` use site. -/
def asStr : JSValue → String
  | .vStr s => s
  | _ => ""

/-- Coercion at the `saveDir.subDirs` use site. -/
def asStrList : JSValue → List String
  | .vArr xs => xs.map asStr
  | _ => []

/-- Model of `fileData.byteLength < minFileSize` with the option value on the right
(a number for well-typed option objects; otherwise the JS comparison with
`undefined` is `false`, as modelled here). -/
def jsNumLt (a : Int) (v : JSValue) : Bool :=
  match v with
  | .vNum m => decide (a < m)
  | _ => false

/-- Model of `_getFilename` (lines 246-256): strip scheme prefix and query string,
split on `/`, keep the last `nameLevel` segments joined by `_`; throw when
the result is empty. -/
def _getFilename (curOpts globalOpts : JSValue) (fileUrl : String) : Except String String :=
  let domainAndPath := stripQuery (stripScheme fileUrl)
  let nSlices := asInt (getOption curOpts globalOpts ["file", "nameLevel"])
  let filename := interUnd (jsSliceNeg nSlices (jsSplit '/' domainAndPath))
  if filename = "" then Except.error "failed to generate filename" else Except.ok filename

/-- A queued work item: `this.pages` entries `\x7burl, metadata?\x7d`.
`metaRef` is the JS object reference of the carried metadata — an index
into the store — so that reference sharing between queued items is
faithfully represented (`undefined` for seed pages). -/
structure PageEntry where
  url : String
  metaRef : Option Nat
deriving DecidableEq, Repr

/-- One configured extractor.  `matched` is `isMatched` (absent means the
`extractor.isMatched != null &&` guard never skips, i.e. always matched);
`extract`, `fileUrls` and `pageUrls` are the oracles for `_getMetadata`,
`_getFileUrls` and `_getPageUrls` applied to the fetched document of a
given page URL; `options` is the per-extractor override object. -/
structure ExtractorM where
  matched : Option (String → Except String Bool)
  extract : String → Except String Obj
  fileUrls : String → Except String (List String)
  pageUrls : String → Except String (List String)
  options : JSValue

/-- The collaborators and configuration: the extractor list, the merged
global options object (the `deepmerge` result of the constructor), the page
fetcher, the file fetcher (returning the fetched `byteLength`),
`fs.existsSync`, `decodeURI` and the underscore template engine. -/
structure Env where
  extractors : List ExtractorM
  options : JSValue
  fetchPage : String → Except String Unit
  fileFetch : String → Except String Int
  fsExists : String → Bool
  decodeURI : String → String
  template : String → Obj → String

/-- Filesystem / network / log actions recorded by the model. -/
inductive Effect where
  | fetchPage (url : String)
  | debugSkipVisited (url : String)
  | warnNoExtractor
  | mkdirRec (dir : String)
  | writeInfo (dir : String) (snapshot : Obj)
  | skipExisting (fileUrl : String)
  | dryrunSkip (fileUrl : String) (filepath : String)
  | fetchFile (fileUrl : String)
  | warnTooSmall (fileUrl : String)
  | writeFile (filepath : String)
  | logFileError (fileUrl : String)
  | logError (e : String)
  | logNullEntry
deriving DecidableEq, Repr

/-- Errors escaping `_processPage`: the `'URL Entry is null'` throw at line
107, or an exception from a collaborator / hook. -/
inductive PDError where
  | nullEntry
  | external (msg : String)
deriving DecidableEq, Repr

/-- The mutable instance state: the work queue `this.pages`, the visited
set `this.processedPages`, the store of live metadata objects (JS heap),
the effect trace, and `this.dryrun`. -/
structure DLState where
  pages : List PageEntry
  processedPages : List String
  store : List Obj
  effects : List Effect
  dryrun : Bool
deriving DecidableEq, Repr

/-- Dereference a metadata object. -/
def storeGet (st : List Obj) (r : Nat) : Obj :=
  st.getD r []

/-- In-place field assignment through a reference: `metadata.url = url`
at line 111 mutates the referenced object. -/
def storeSet (st : List Obj) (r : Nat) (k : String) (v : MetaVal) : List Obj :=
  st.set r (objSet (storeGet st r) k v)

/-- Model of `_getSaveDir` (lines 234-243), minus the `mkdirSync` side effect which
the caller records: resolve `saveDir.root` and `saveDir.subDirs`, template
and sanitize each sub-directory, and `path.join` the pieces. -/
def _getSaveDir (env : Env) (curOpts : JSValue) (metadata : Obj) : String :=
  let root := asStr (getOption curOpts env.options ["saveDir", "root"])
  let subDirs := (asStrList (getOption curOpts env.options ["saveDir", "subDirs"])).map
    (fun dirname => sanitize (env.template dirname metadata))
  subDirs.foldl (fun a b => a ++ "/" ++ b) root

/-- One iteration of the `for (const _fileUrl of fileUrls)` loop of
`_saveFiles` (lines 265-294): `decodeURI`, `_getFilename` (outside any
`try` — a throw here escapes the whole loop, hence the `Except`), the
existence/overwrite skip, the dryrun skip, then the per-file `try` around
fetch / minSize check / write. -/
def fileStep (env : Env) (curOpts : JSValue) (dryrun : Bool) (saveDir : String)
    (f : String) : Except PDError (List Effect) :=
  let fileUrl := env.decodeURI f
  match _getFilename curOpts env.options fileUrl with
  | .error e => .error (.external e)
  | .ok filename =>
    let filepath := saveDir ++ "/" ++ filename
    if !(isTrue (getOption curOpts env.options ["file", "overwrite"])) && env.fsExists filepath then
      .ok [.skipExisting fileUrl]
    else if dryrun then
      .ok [.dryrunSkip fileUrl filepath]
    else
      match env.fileFetch fileUrl with
      | .error _ => .ok [.fetchFile fileUrl, .logFileError fileUrl]
      | .ok size =>
        if jsNumLt size (getOption curOpts env.options ["file", "minSize"]) then
          .ok [.fetchFile fileUrl, .warnTooSmall fileUrl]
        else
          .ok [.fetchFile fileUrl, .writeFile filepath]

/-- The whole per-file loop of `_saveFiles`: run `fileStep` on each URL in
order, accumulating effects; an escaped `_getFilename` throw aborts the
remaining files at once. -/
def saveFilesLoop (env : Env) (curOpts : JSValue) (dryrun : Bool) (saveDir : String)
    (effs : List Effect) : List String → List Effect × Option PDError
  | [] => (effs, none)
  | f :: rest =>
    match fileStep env curOpts dryrun saveDir f with
    | .error e => (effs, some e)
    | .ok es => saveFilesLoop env curOpts dryrun saveDir (effs ++ es) rest

/-- Model of `_saveFiles` (lines 259-295): create the save directory (recursively),
write the `info.json` metadata snapshot, then run the per-file loop. -/
def _saveFiles (env : Env) (curOpts : JSValue) (dryrun : Bool) (fileUrls : List String)
    (metadata : Obj) (effs : List Effect) : List Effect × Option PDError :=
  let saveDir := _getSaveDir env curOpts metadata
  saveFilesLoop env curOpts dryrun saveDir
    (effs ++ [.mkdirRec saveDir, .writeInfo saveDir metadata]) fileUrls

/-- The body of the `for (const extractor of this.extractors)` loop of
`_processPage` (lines 123-142), for one extractor.  `metaRef` is the
reference held by the local variable `metadata`; on a match,
`Object.assign` allocates a fresh merged object, `_saveFiles` runs, and
every discovered page is pushed carrying the same reference to that one
merged object (line 141).  An error (a throw anywhere in the body) carries
the mutations made so far; a normal result returns the updated state, the
reference now held by `metadata`, and whether this extractor matched. -/
def extractorStep (env : Env) (url : String) (ex : ExtractorM) (metaRef : Nat) (s : DLState) :
    Except (DLState × PDError) (DLState × Nat × Bool) :=
  let matchedRes := match ex.matched with
    | none => Except.ok true
    | some f => f url
  match matchedRes with
  | .error e => .error (s, .external e)
  | .ok false => .ok (s, metaRef, false)
  | .ok true =>
    match ex.extract url with
    | .error e => .error (s, .external e)
    | .ok extracted =>
      let merged := objAssign (storeGet s.store metaRef) extracted
      let newRef := s.store.length
      let s1 : DLState := { s with store := s.store ++ [merged] }
      match ex.fileUrls url with
      | .error e => .error (s1, .external e)
      | .ok fus =>
        match _saveFiles env ex.options s1.dryrun fus merged s1.effects with
        | (effs, some e) => .error ({ s1 with effects := effs }, e)
        | (effs, none) =>
          let s2 : DLState := { s1 with effects := effs }
          match ex.pageUrls url with
          | .error e => .error (s2, .external e)
          | .ok pus =>
            .ok ({ s2 with pages := s2.pages ++ pus.map (fun u => PageEntry.mk u (some newRef)) },
              newRef, true)

/-- The whole extractor loop (lines 122-146): run `extractorStep` on each
extractor in declaration order, threading the state, the `metadata`
reference and the `foundExtractor` flag; an error aborts the loop at once
(leaving all mutations made so far in place), and when no extractor
matched a warning is logged. -/
def extractorLoop (env : Env) (url : String) :
    List ExtractorM → Nat → Bool → DLState → DLState × Option PDError
  | [], _, found, s =>
    if found then (s, none) else ({ s with effects := s.effects ++ [.warnNoExtractor] }, none)
  | ex :: rest, metaRef, found, s =>
    match extractorStep env url ex metaRef s with
    | .error (s2, e) => (s2, some e)
    | .ok (s2, metaRef2, matchedHere) =>
      extractorLoop env url rest metaRef2 (found || matchedHere) s2

/-- Lines 110-111: `let metadata = urlEntry.metadata || \x7b\x7d` (a fresh
empty object is allocated for seed entries, otherwise the carried reference
is used as-is) followed by the in-place mutation `metadata.url = url`.
Returns the reference now held by the local variable `metadata` and the
updated heap. -/
def stampEntry (store : List Obj) (entry : PageEntry) : Nat × List Obj :=
  match entry.metaRef with
  | some r => (r, storeSet store r "url" (.s entry.url))
  | none => (store.length, storeSet (store ++ [[]]) store.length "url" (.s entry.url))

/-- Model of `_processPage` (lines 105-147): shift the queue head (throwing when the
queue is empty), stamp `metadata.url` on the carried object (allocating a
fresh empty object for seed pages), consult the visited set, mark visited,
fetch, and run the extractor loop.  The returned state holds all mutations
performed before any error. -/
def _processPage (env : Env) (s : DLState) : DLState × Option PDError :=
  match s.pages with
  | [] => (s, some .nullEntry)
  | entry :: rest =>
    let url := entry.url
    let stamped := stampEntry s.store entry
    let metaRef := stamped.1
    let s1 : DLState := { s with pages := rest, store := stamped.2 }
    if url ∈ s1.processedPages then
      ({ s1 with effects := s1.effects ++ [.debugSkipVisited url] }, none)
    else
      let s2 : DLState := { s1 with processedPages := s1.processedPages ++ [url] }
      match env.fetchPage url with
      | .error e => ({ s2 with effects := s2.effects ++ [.fetchPage url] }, some (.external e))
      | .ok _ =>
        extractorLoop env url env.extractors metaRef false
          { s2 with effects := s2.effects ++ [.fetchPage url] }

/-- The `console.error` log entry the run loop records for a caught
error. -/
def errLogEffect : PDError → Effect
  | .nullEntry => .logNullEntry
  | .external e => .logError e

/-- One iteration body of the `while` loop in `run` (line 100):
`await this._processPage().catch(e => console.error(e))` — every error is
caught here and only logged. -/
def loopBody (env : Env) (s : DLState) : DLState :=
  match _processPage env s with
  | (s2, none) => s2
  | (s2, some e) => { s2 with effects := s2.effects ++ [errLogEffect e] }

/-- The `while (this.pages.length > 0)` loop of `run` (lines 99-102), with
explicit fuel standing for the number of iterations actually executed. -/
def runFuel (env : Env) : Nat → DLState → DLState
  | 0, s => s
  | n + 1, s => if s.pages.isEmpty then s else runFuel env n (loopBody env s)

/-- Model of `run(options?)` (lines 96-102): set `this.dryrun` when requested, then
drain the queue. -/
def run (env : Env) (dryrunOpt : Option Bool) (fuel : Nat) (s : DLState) : DLState :=
  let s1 := match dryrunOpt with
    | some true => { s with dryrun := true }
    | _ => s
  runFuel env fuel s1

/-- Number of page-fetch attempts for `u` in a trace. -/
def countFetch (effs : List Effect) (u : String) : Nat :=
  effs.count (Effect.fetchPage u)

/-- Upper bound on the pages one extractor can push for `url`. -/
def exWeight (url : String) (ex : ExtractorM) : Nat :=
  match ex.pageUrls url with
  | .ok l => l.length
  | .error _ => 0

/-- Upper bound on the pages a whole extractor list can push for `url`. -/
def weightList (url : String) (exs : List ExtractorM) : Nat :=
  (exs.map (exWeight url)).sum

/-- Upper bound on the pages processing `u` can enqueue. -/
def pageWeight (env : Env) (u : String) : Nat :=
  weightList u env.extractors

/-- Total enqueue budget of the not-yet-visited part of a URL universe. -/
def unvisitedWeight (env : Env) (U : List String) (processed : List String) : Nat :=
  ((U.filter (fun u => !decide (u ∈ processed))).map (pageWeight env)).sum

/-- Termination measure for the crawl loop over a finite URL universe. -/
def crawlMeasure (env : Env) (U : List String) (s : DLState) : Nat :=
  unvisitedWeight env U s.processedPages + s.pages.length

/-- Effects a claim about the run/page level never attributes to the file
level: everything except `fetchPage` and the two run-loop log effects. -/
def notRunLevel : Effect → Bool
  | .fetchPage _ => false
  | .logError _ => false
  | .logNullEntry => false
  | _ => true

/-- The filename rule as the specification words it: strip scheme prefix
and query string, split the remaining domain/path on `/`, keep the last
`nameLevel` segments (0 keeping all segments) joined by `_`; an empty
result is an error for that file. -/
def specFilename (n : Nat) (url : String) : Except String String :=
  let segments := jsSplit '/' (stripQuery (stripScheme url))
  let kept := if n = 0 then segments else (segments.reverse.take n).reverse
  let joined := interUnd kept
  if joined = "" then Except.error "failed to generate filename" else Except.ok joined

/-- The typed shape of the `saveDir` part of `Options`. -/
structure SaveDirOpts where
  root : String
  subDirs : List String

/-- The typed shape of the `file` part of `Options`. -/
structure FileOpts where
  nameLevel : Int
  overwrite : Bool
  minSize : Int

/-- The typed shape of the merged global `Options`. -/
structure OptionsFull where
  saveDir : SaveDirOpts
  file : FileOpts

/-- Partial shape (`RecursivePartial`) of the `saveDir` part: every leaf optional. -/
structure SaveDirOptsP where
  root : Option String
  subDirs : Option (List String)

/-- Partial shape (`RecursivePartial`) of the `file` part: every leaf optional. -/
structure FileOptsP where
  nameLevel : Option Int
  overwrite : Option Bool
  minSize : Option Int

/-- Partial shape (`RecursivePartial Options`), the type of an extractor's option
override: every node optional. -/
structure OptionsPart where
  saveDir : Option SaveDirOptsP
  file : Option FileOptsP

/-- A present field of a partial options object; an absent field simply
has no key. -/
def optField (k : String) : Option JSValue → List (String × JSValue)
  | none => []
  | some v => [(k, v)]

/-- Encode a full `Options` value as the JS object `getOption` digs in. -/
def encodeFull (g : OptionsFull) : JSValue :=
  .vObj [("saveDir", .vObj [("root", .vStr g.saveDir.root),
                            ("subDirs", .vArr (g.saveDir.subDirs.map JSValue.vStr))]),
         ("file", .vObj [("nameLevel", .vNum g.file.nameLevel),
                         ("overwrite", .vBool g.file.overwrite),
                         ("minSize", .vNum g.file.minSize)])]

/-- Encode a partial `saveDir` override. -/
def encodeSaveDirP (p : SaveDirOptsP) : JSValue :=
  .vObj (optField "root" (p.root.map JSValue.vStr)
    ++ optField "subDirs" (p.subDirs.map (fun l => JSValue.vArr (l.map JSValue.vStr))))

/-- Encode a partial `file` override. -/
def encodeFileP (p : FileOptsP) : JSValue :=
  .vObj (optField "nameLevel" (p.nameLevel.map JSValue.vNum)
    ++ optField "overwrite" (p.overwrite.map JSValue.vBool)
    ++ optField "minSize" (p.minSize.map JSValue.vNum))

/-- Encode a `RecursivePartial Options` extractor override. -/
def encodePart (o : OptionsPart) : JSValue :=
  .vObj (optField "saveDir" (o.saveDir.map encodeSaveDirP)
    ++ optField "file" (o.file.map encodeFileP))

/-- The five option leaf paths. -/
inductive OptLeaf where
  | saveRoot
  | saveSubDirs
  | nameLevel
  | overwrite
  | minSize
deriving DecidableEq, Repr

/-- The key path of a leaf. -/
def leafPath : OptLeaf → List String
  | .saveRoot => ["saveDir", "root"]
  | .saveSubDirs => ["saveDir", "subDirs"]
  | .nameLevel => ["file", "nameLevel"]
  | .overwrite => ["file", "overwrite"]
  | .minSize => ["file", "minSize"]

/-- The (encoded) value a partial override defines at a leaf, when any. -/
def leafPart (o : OptionsPart) : OptLeaf → Option JSValue
  | .saveRoot => (o.saveDir.bind SaveDirOptsP.root).map JSValue.vStr
  | .saveSubDirs => (o.saveDir.bind SaveDirOptsP.subDirs).map (fun l => JSValue.vArr (l.map JSValue.vStr))
  | .nameLevel => (o.file.bind FileOptsP.nameLevel).map JSValue.vNum
  | .overwrite => (o.file.bind FileOptsP.overwrite).map JSValue.vBool
  | .minSize => (o.file.bind FileOptsP.minSize).map JSValue.vNum

/-- The (encoded) value the full global options hold at a leaf. -/
def leafFull (g : OptionsFull) : OptLeaf → JSValue
  | .saveRoot => .vStr g.saveDir.root
  | .saveSubDirs => .vArr (g.saveDir.subDirs.map JSValue.vStr)
  | .nameLevel => .vNum g.file.nameLevel
  | .overwrite => .vBool g.file.overwrite
  | .minSize => .vNum g.file.minSize

/-- The effect the dry-run branch of the per-file loop records for one
file URL: the existence/overwrite skip when that check fires (it is
evaluated first), otherwise the dry-run log. -/
def dryrunFileEffect (env : Env) (curOpts : JSValue) (saveDir : String) (f : String) : Effect :=
  let fileUrl := env.decodeURI f
  let filename := match _getFilename curOpts env.options fileUrl with
    | .ok fn => fn
    | .error _ => ""
  let filepath := saveDir ++ "/" ++ filename
  if !(isTrue (getOption curOpts env.options ["file", "overwrite"])) && env.fsExists filepath then
    Effect.skipExisting fileUrl
  else
    Effect.dryrunSkip fileUrl filepath

/-- The global options object holding the built-in defaults (the
`deepmerge` result when the user supplies no options). -/
def defaultOptionsJS : JSValue :=
  encodeFull ⟨⟨"./download", []⟩, ⟨1, false, 0⟩⟩

/-- Global options with the defaults except for `file.nameLevel`. -/
def globalWithNameLevel (n : Int) : JSValue :=
  encodeFull ⟨⟨"./download", []⟩, ⟨n, false, 0⟩⟩

/-- A concrete extractor whose `pageSelector` finds two links on the seed
page and nothing elsewhere. -/
def exC2 : ExtractorM :=
  { matched := none
    extract := fun _ => .ok []
    fileUrls := fun _ => .ok []
    pageUrls := fun u => .ok (if u = "https://p/" then ["https://c1/", "https://c2/"] else [])
    options := .vUndefined }

/-- A concrete environment for the shared-metadata scenario. -/
def envC2 : Env :=
  { extractors := [exC2]
    options := defaultOptionsJS
    fetchPage := fun _ => .ok ()
    fileFetch := fun _ => .ok 100
    fsExists := fun _ => false
    decodeURI := fun s => s
    template := fun s _ => s }

/-- The initial state seeded with one page. -/
def stSeed : DLState := ⟨[⟨"https://p/", none⟩], [], [], [], false⟩

/-- The state after processing the seed page. -/
def stAfterSeed : DLState := loopBody envC2 stSeed

/-- The state after additionally processing the first discovered sibling. -/
def stAfterC1 : DLState := loopBody envC2 stAfterSeed

/-- A concrete extractor whose file selector yields one URL with an empty
tail segment (a URL ending in `/`) followed by a well-formed URL, and one
page link. -/
def exC5 : ExtractorM :=
  { matched := none
    extract := fun _ => .ok []
    fileUrls := fun _ => .ok ["https://ex.com/a/", "https://ex.com/b.jpg"]
    pageUrls := fun _ => .ok ["https://child/"]
    options := .vUndefined }

/-- Environment for the filename-failure scenario. -/
def envC5 : Env :=
  { extractors := [exC5]
    options := defaultOptionsJS
    fetchPage := fun _ => .ok ()
    fileFetch := fun _ => .ok 100
    fsExists := fun _ => false
    decodeURI := fun s => s
    template := fun s _ => s }

/-- Seed state for the filename-failure scenario: one page carrying a
metadata object, with a second page already queued behind it. -/
def stC5 : DLState := ⟨[⟨"https://p/", some 0⟩, ⟨"https://q/", none⟩], [], [[]], [], false⟩

/-- Seed state for the metadata-merge scenario: one page carrying a
reference to an allocated (empty) metadata object. -/
def stC3 : DLState := ⟨[⟨"https://p/", some 0⟩], [], [[]], [], false⟩

/-- A concrete extractor extracting one metadata field and one child link
from the seed page. -/
def exC3 : ExtractorM :=
  { matched := none
    extract := fun u => .ok (if u = "https://p/" then [("a", MetaVal.s "1")] else [("b", MetaVal.s "2")])
    fileUrls := fun _ => .ok []
    pageUrls := fun u => .ok (if u = "https://p/" then ["https://c/"] else [])
    options := .vUndefined }

/-- Environment for the metadata-merge scenario. -/
def envC3 : Env :=
  { extractors := [exC3]
    options := defaultOptionsJS
    fetchPage := fun _ => .ok ()
    fileFetch := fun _ => .ok 100
    fsExists := fun _ => false
    decodeURI := fun s => s
    template := fun s _ => s }

/-- An environment with no extractors at all. -/
def envEmpty : Env :=
  { extractors := []
    options := defaultOptionsJS
    fetchPage := fun _ => .ok ()
    fileFetch := fun _ => .ok 100
    fsExists := fun _ => false
    decodeURI := fun s => s
    template := fun s _ => s }

/-- The empty state (empty queue). -/
def stEmpty : DLState := ⟨[], [], [], [], false⟩

/-! ## Object and store lemmas -/

theorem lookup_upd_ne (m : Obj) (k k' : String) (v : MetaVal) (h : k' ≠ k) :
    List.lookup k' (m.map (fun p => if p.1 == k then (k, v) else p)) = List.lookup k' m := by
  induction m with
  | nil => rfl
  | cons p t ih =>
    obtain ⟨pk, pv⟩ := p
    have hne : (k' == k) = false := by simp [h]
    by_cases hp : pk = k
    · subst hp
      simp only [List.map_cons, if_pos (beq_self_eq_true pk)]
      rw [List.lookup_cons, List.lookup_cons, hne]
      exact ih
    · have hpk : (pk == k) = false := by simp [hp]
      simp only [List.map_cons, hpk, Bool.false_eq_true, if_false]
      rw [List.lookup_cons, List.lookup_cons]
      cases hkk : k' == pk with
      | true => rfl
      | false => exact ih

theorem lookup_upd_eq (m : Obj) (k : String) (v : MetaVal)
    (h : m.any (fun p => p.1 == k) = true) :
    List.lookup k (m.map (fun p => if p.1 == k then (k, v) else p)) = some v := by
  induction m with
  | nil => simp at h
  | cons p t ih =>
    obtain ⟨pk, pv⟩ := p
    by_cases hp : pk = k
    · subst hp
      simp only [List.map_cons, if_pos (beq_self_eq_true pk)]
      rw [List.lookup_cons, beq_self_eq_true]
    · have hpk : (pk == k) = false := by simp [hp]
      simp only [List.map_cons, hpk, Bool.false_eq_true, if_false]
      rw [List.lookup_cons]
      have hkp : (k == pk) = false := by
        simp only [beq_eq_false_iff_ne]
        exact fun he => hp he.symm
      rw [hkp]
      simp only [List.any_cons, hpk, Bool.false_or] at h
      exact ih h

theorem lookup_none_of_any_eq_false (m : Obj) (k : String)
    (h : m.any (fun p => p.1 == k) = false) :
    List.lookup k m = none := by
  induction m with
  | nil => rfl
  | cons p t ih =>
    obtain ⟨pk, pv⟩ := p
    simp only [List.any_cons, Bool.or_eq_false_iff] at h
    rw [List.lookup_cons]
    have hkp : (k == pk) = false := by
      have : (pk == k) = false := h.1
      simp only [beq_eq_false_iff_ne] at this ⊢
      exact fun he => this he.symm
    rw [hkp]
    exact ih h.2

theorem objLookup_objSet (m : Obj) (k : String) (v : MetaVal) (k' : String) :
    objLookup (objSet m k v) k' = if k' = k then some v else objLookup m k' := by
  unfold objLookup objSet
  cases hany : m.any (fun p => p.1 == k) with
  | true =>
    rw [if_pos rfl]
    by_cases hk : k' = k
    · subst hk; rw [if_pos rfl, lookup_upd_eq m k' v hany]
    · rw [if_neg hk, lookup_upd_ne m k k' v hk]
  | false =>
    rw [if_neg (by simp)]
    by_cases hk : k' = k
    · subst hk
      rw [if_pos rfl, List.lookup_append, lookup_none_of_any_eq_false m k' hany]
      simp [List.lookup_cons]
    · rw [if_neg hk, List.lookup_append]
      have h1 : List.lookup k' [(k, v)] = none := by
        rw [List.lookup_cons]
        have : (k' == k) = false := by simp [hk]
        rw [this]; rfl
      rw [h1]
      cases List.lookup k' m <;> rfl

theorem objLookup_objAssign (m e : Obj) (k : String) (h : (e.map Prod.fst).Nodup) :
    objLookup (objAssign m e) k = (objLookup e k).or (objLookup m k) := by
  induction e generalizing m with
  | nil => simp [objAssign, objLookup]
  | cons kv t ih =>
    obtain ⟨k0, v0⟩ := kv
    simp only [List.map_cons, List.nodup_cons] at h
    have hstep : objAssign m ((k0, v0) :: t) = objAssign (objSet m k0 v0) t := rfl
    rw [hstep, ih (objSet m k0 v0) h.2, objLookup_objSet]
    by_cases hk : k = k0
    · subst hk
      have hnone : objLookup t k = none := by
        unfold objLookup
        rw [List.lookup_eq_none_iff]
        intro p hp
        have : p.1 ∈ t.map Prod.fst := List.mem_map_of_mem Prod.fst hp
        have hne : k ≠ p.1 := fun he => h.1 (he ▸ this)
        simpa using hne
      unfold objLookup at hnone ⊢
      rw [hnone, List.lookup_cons, beq_self_eq_true]
      simp
    · unfold objLookup
      rw [List.lookup_cons]
      have : (k == k0) = false := by simp [hk]
      rw [this, if_neg hk]

theorem length_storeSet (st : List Obj) (r : Nat) (k : String) (v : MetaVal) :
    (storeSet st r k v).length = st.length := by
  simp [storeSet]

theorem storeGet_storeSet_self (st : List Obj) (r : Nat) (k : String) (v : MetaVal)
    (h : r < st.length) :
    storeGet (storeSet st r k v) r = objSet (storeGet st r) k v := by
  simp [storeGet, storeSet, List.getD_eq_getElem?_getD, List.getElem?_set_self h]

theorem storeGet_append_self (st : List Obj) (o : Obj) :
    storeGet (st ++ [o]) st.length = o := by
  simp [storeGet, List.getD_eq_getElem?_getD, List.getElem?_append_right (Nat.le_refl _)]

theorem storeGet_append_left (st app : List Obj) (r : Nat) (h : r < st.length) :
    storeGet (st ++ app) r = storeGet st r := by
  simp [storeGet, List.getD_eq_getElem?_getD, List.getElem?_append_left h]

/-! ## File-save loop lemmas -/

theorem fileStep_ok_notRunLevel (env : Env) (c : JSValue) (d : Bool) (sd f : String)
    (es : List Effect) (h : fileStep env c d sd f = .ok es) :
    ∀ ε ∈ es, notRunLevel ε = true := by
  simp only [fileStep] at h
  repeat' split at h
  all_goals first
    | exact Except.noConfusion h
    | (injection h with h2; subst h2; simp [notRunLevel])

theorem fileStep_error_filename (env : Env) (c : JSValue) (d : Bool) (sd f : String)
    (e : PDError) (h : fileStep env c d sd f = .error e) :
    ∃ msg, _getFilename c env.options (env.decodeURI f) = .error msg
      ∧ e = .external msg := by
  simp only [fileStep] at h
  repeat' split at h
  all_goals first
    | exact Except.noConfusion h
    | (rename_i e2 heq; injection h with h2; exact ⟨e2, heq, h2.symm⟩)

theorem fileStep_err_external (env : Env) (c : JSValue) (d : Bool) (sd f : String)
    (e : PDError) (h : fileStep env c d sd f = .error e) :
    ∃ msg, e = .external msg := by
  obtain ⟨msg, _, he⟩ := fileStep_error_filename env c d sd f e h
  exact ⟨msg, he⟩

theorem fileStep_ok_of_filename_ok (env : Env) (c : JSValue) (d : Bool) (sd f : String)
    (nm : String) (h : _getFilename c env.options (env.decodeURI f) = .ok nm) :
    ∃ es, fileStep env c d sd f = .ok es := by
  rcases hs : fileStep env c d sd f with e | es
  · obtain ⟨msg, hmsg, _⟩ := fileStep_error_filename env c d sd f e hs
    rw [h] at hmsg
    cases hmsg
  · exact ⟨es, rfl⟩

theorem fileStep_dryrun (env : Env) (c : JSValue) (sd f : String)
    (nm : String) (h : _getFilename c env.options (env.decodeURI f) = .ok nm) :
    fileStep env c true sd f = .ok [dryrunFileEffect env c sd f] := by
  simp only [fileStep, dryrunFileEffect, h]
  by_cases hC : (!(isTrue (getOption c env.options ["file", "overwrite"]))
      && env.fsExists (sd ++ "/" ++ nm)) = true
  · simp [hC]
  · simp [hC]

theorem saveFilesLoop_effects (env : Env) (c : JSValue) (d : Bool) (sd : String) :
    ∀ (fus : List String) (effs : List Effect),
      ∃ Δ, (saveFilesLoop env c d sd effs fus).1 = effs ++ Δ
        ∧ ∀ ε ∈ Δ, notRunLevel ε = true := by
  intro fus
  induction fus with
  | nil => exact fun effs => ⟨[], by simp [saveFilesLoop], by simp⟩
  | cons f t ih =>
    intro effs
    simp only [saveFilesLoop]
    cases hs : fileStep env c d sd f with
    | error e => exact ⟨[], by simp, by simp⟩
    | ok es =>
      obtain ⟨Δ, hΔ, hall⟩ := ih (effs ++ es)
      refine ⟨es ++ Δ, by rw [hΔ, List.append_assoc], ?_⟩
      intro ε hε
      rcases List.mem_append.mp hε with h1 | h1
      · exact fileStep_ok_notRunLevel env c d sd f es hs ε h1
      · exact hall ε h1

theorem saveFilesLoop_err_external (env : Env) (c : JSValue) (d : Bool) (sd : String) :
    ∀ (fus : List String) (effs : List Effect),
      (saveFilesLoop env c d sd effs fus).2 = none
      ∨ ∃ msg, (saveFilesLoop env c d sd effs fus).2 = some (.external msg) := by
  intro fus
  induction fus with
  | nil => exact fun effs => Or.inl rfl
  | cons f t ih =>
    intro effs
    simp only [saveFilesLoop]
    cases hs : fileStep env c d sd f with
    | error e =>
      obtain ⟨msg, rfl⟩ := fileStep_err_external env c d sd f e hs
      exact Or.inr ⟨msg, rfl⟩
    | ok es => exact ih (effs ++ es)

theorem saveFilesLoop_none (env : Env) (c : JSValue) (d : Bool) (sd : String) :
    ∀ (fus : List String) (effs : List Effect),
      (∀ f ∈ fus, ∃ nm, _getFilename c env.options (env.decodeURI f) = .ok nm) →
      (saveFilesLoop env c d sd effs fus).2 = none := by
  intro fus
  induction fus with
  | nil => exact fun effs _ => rfl
  | cons f t ih =>
    intro effs hok
    simp only [saveFilesLoop]
    obtain ⟨nm, hnm⟩ := hok f (by simp)
    obtain ⟨es, hes⟩ := fileStep_ok_of_filename_ok env c d sd f nm hnm
    rw [hes]
    exact ih (effs ++ es) (fun g hg => hok g (by simp [hg]))

theorem saveFilesLoop_dryrun (env : Env) (c : JSValue) (sd : String) :
    ∀ (fus : List String) (effs : List Effect),
      (∀ f ∈ fus, ∃ nm, _getFilename c env.options (env.decodeURI f) = .ok nm) →
      saveFilesLoop env c true sd effs fus
        = (effs ++ fus.map (dryrunFileEffect env c sd), none) := by
  intro fus
  induction fus with
  | nil => exact fun effs _ => by simp [saveFilesLoop]
  | cons f t ih =>
    intro effs hok
    obtain ⟨nm, hnm⟩ := hok f (by simp)
    simp only [saveFilesLoop, fileStep_dryrun env c sd f nm hnm]
    rw [ih (effs ++ [dryrunFileEffect env c sd f]) (fun g hg => hok g (by simp [hg]))]
    simp

theorem _saveFiles_effects (env : Env) (c : JSValue) (d : Bool) (fus : List String)
    (m : Obj) (effs : List Effect) :
    ∃ Δ, (_saveFiles env c d fus m effs).1 = effs ++ Δ ∧ ∀ ε ∈ Δ, notRunLevel ε = true := by
  unfold _saveFiles
  obtain ⟨Δ, hΔ, hall⟩ := saveFilesLoop_effects env c d (_getSaveDir env c m) fus
    (effs ++ [.mkdirRec (_getSaveDir env c m), .writeInfo (_getSaveDir env c m) m])
  refine ⟨[.mkdirRec (_getSaveDir env c m), .writeInfo (_getSaveDir env c m) m] ++ Δ,
    by rw [hΔ, List.append_assoc], ?_⟩
  intro ε hε
  rcases List.mem_append.mp hε with h1 | h1
  · rcases List.mem_cons.mp h1 with rfl | h2
    · rfl
    · rcases List.mem_cons.mp h2 with rfl | h3
      · rfl
      · exact absurd h3 (List.not_mem_nil ε)
  · exact hall ε h1

theorem _saveFiles_err_external (env : Env) (c : JSValue) (d : Bool) (fus : List String)
    (m : Obj) (effs : List Effect) :
    (_saveFiles env c d fus m effs).2 = none
    ∨ ∃ msg, (_saveFiles env c d fus m effs).2 = some (.external msg) := by
  unfold _saveFiles
  exact saveFilesLoop_err_external env c d (_getSaveDir env c m) fus _

/-! ## Extractor loop characterization -/

theorem weightList_cons (url : String) (ex : ExtractorM) (rest : List ExtractorM) :
    weightList url (ex :: rest) = exWeight url ex + weightList url rest := by
  simp [weightList]


/-! ## Extractor loop characterization -/

theorem _saveFiles_pair (env : Env) (c : JSValue) (d : Bool) (fus : List String) (m : Obj)
    (effs0 effs : List Effect) (err : Option PDError)
    (h : _saveFiles env c d fus m effs0 = (effs, err)) :
    (∃ Δ, effs = effs0 ++ Δ ∧ ∀ ε ∈ Δ, notRunLevel ε = true)
    ∧ (err = none ∨ ∃ msg, err = some (.external msg)) := by
  obtain ⟨Δ, hΔ, hall⟩ := _saveFiles_effects env c d fus m effs0
  rcases _saveFiles_err_external env c d fus m effs0 with h0 | ⟨msg, hmsg⟩
  · rw [h] at hΔ h0
    exact ⟨⟨Δ, hΔ, hall⟩, Or.inl h0⟩
  · rw [h] at hΔ hmsg
    exact ⟨⟨Δ, hΔ, hall⟩, Or.inr ⟨msg, hmsg⟩⟩

theorem extractorStep_error_spec (env : Env) (url : String) (ex : ExtractorM) (metaRef : Nat)
    (s s2 : DLState) (e : PDError)
    (h : extractorStep env url ex metaRef s = .error (s2, e)) :
    (∃ app, s2.store = s.store ++ app)
    ∧ s2.processedPages = s.processedPages
    ∧ s2.dryrun = s.dryrun
    ∧ (∃ Δ, s2.effects = s.effects ++ Δ ∧ ∀ ε ∈ Δ, notRunLevel ε = true)
    ∧ s2.pages = s.pages
    ∧ ∃ msg, e = .external msg := by
  simp only [extractorStep] at h
  split at h
  · injection h with h2
    injection h2 with ha hb
    subst ha; subst hb
    exact ⟨⟨[], by simp⟩, rfl, rfl, ⟨[], by simp, by simp⟩, rfl, ⟨_, rfl⟩⟩
  · exact Except.noConfusion h
  · split at h
    · injection h with h2
      injection h2 with ha hb
      subst ha; subst hb
      exact ⟨⟨[], by simp⟩, rfl, rfl, ⟨[], by simp, by simp⟩, rfl, ⟨_, rfl⟩⟩
    · split at h
      · injection h with h2
        injection h2 with ha hb
        subst ha; subst hb
        exact ⟨⟨_, rfl⟩, rfl, rfl, ⟨[], by simp, by simp⟩, rfl, ⟨_, rfl⟩⟩
      · split at h
        · rename_i heq
          injection h with h2
          injection h2 with ha hb
          subst ha; subst hb
          obtain ⟨⟨Δ, hΔ, hall⟩, herr⟩ := _saveFiles_pair _ _ _ _ _ _ _ _ heq
          rcases herr with h0 | ⟨msg, hmsg⟩
          · exact Option.noConfusion h0
          · refine ⟨⟨_, rfl⟩, rfl, rfl, ⟨Δ, hΔ, hall⟩, rfl, ⟨msg, ?_⟩⟩
            injection hmsg
        · split at h
          · rename_i x1 effs hsave x2 e2 hpage
            injection h with h2
            injection h2 with ha hb
            subst ha; subst hb
            obtain ⟨⟨Δ, hΔ, hall⟩, _⟩ := _saveFiles_pair _ _ _ _ _ _ _ _ hsave
            exact ⟨⟨_, rfl⟩, rfl, rfl, ⟨Δ, hΔ, hall⟩, rfl, ⟨_, rfl⟩⟩
          · exact Except.noConfusion h

theorem extractorStep_ok_spec (env : Env) (url : String) (ex : ExtractorM) (metaRef : Nat)
    (s s2 : DLState) (metaRef2 : Nat) (mh : Bool)
    (h : extractorStep env url ex metaRef s = .ok (s2, metaRef2, mh)) :
    (∃ app, s2.store = s.store ++ app)
    ∧ s2.processedPages = s.processedPages
    ∧ s2.dryrun = s.dryrun
    ∧ (∃ Δ, s2.effects = s.effects ++ Δ ∧ ∀ ε ∈ Δ, notRunLevel ε = true)
    ∧ (∃ pushed, s2.pages = s.pages ++ pushed
        ∧ pushed.length ≤ exWeight url ex
        ∧ ∀ p ∈ pushed, ∃ l, ex.pageUrls url = Except.ok l ∧ p.url ∈ l) := by
  simp only [extractorStep] at h
  split at h
  · exact Except.noConfusion h
  · injection h with h2
    injection h2 with ha h3
    injection h3 with hb hc
    subst ha; subst hb; subst hc
    exact ⟨⟨[], by simp⟩, rfl, rfl, ⟨[], by simp, by simp⟩, ⟨[], by simp, by simp, by simp⟩⟩
  · split at h
    · exact Except.noConfusion h
    · split at h
      · exact Except.noConfusion h
      · split at h
        · exact Except.noConfusion h
        · split at h
          · exact Except.noConfusion h
          · rename_i x1 effs hsave x2 pus hpage
            injection h with h2
            injection h2 with ha h3
            injection h3 with hb hc
            subst ha; subst hb; subst hc
            obtain ⟨⟨Δ, hΔ, hall⟩, _⟩ := _saveFiles_pair _ _ _ _ _ _ _ _ hsave
            refine ⟨⟨_, rfl⟩, rfl, rfl, ⟨Δ, hΔ, hall⟩,
              ⟨_, rfl, ?_, ?_⟩⟩
            · have : exWeight url ex = pus.length := by simp [exWeight, hpage]
              simp [this]
            · intro p hp
              obtain ⟨u, hu, rfl⟩ := List.mem_map.mp hp
              exact ⟨pus, hpage, hu⟩

theorem extractorLoop_spec (env : Env) (url : String) :
    ∀ (exs : List ExtractorM) (metaRef : Nat) (found : Bool) (s : DLState),
      (∃ app, (extractorLoop env url exs metaRef found s).1.store = s.store ++ app)
      ∧ (extractorLoop env url exs metaRef found s).1.processedPages = s.processedPages
      ∧ (extractorLoop env url exs metaRef found s).1.dryrun = s.dryrun
      ∧ (∃ Δ, (extractorLoop env url exs metaRef found s).1.effects = s.effects ++ Δ
           ∧ ∀ ε ∈ Δ, notRunLevel ε = true)
      ∧ (∃ pushed, (extractorLoop env url exs metaRef found s).1.pages = s.pages ++ pushed
           ∧ pushed.length ≤ weightList url exs
           ∧ ∀ p ∈ pushed, ∃ ex ∈ exs, ∃ l, ex.pageUrls url = Except.ok l ∧ p.url ∈ l)
      ∧ ((extractorLoop env url exs metaRef found s).2 = none
           ∨ ∃ msg, (extractorLoop env url exs metaRef found s).2 = some (.external msg)) := by
  intro exs
  induction exs with
  | nil =>
    intro metaRef found s
    simp only [extractorLoop]
    by_cases hf : found = true
    · subst hf
      simp only [if_pos rfl]
      exact ⟨⟨[], by simp⟩, rfl, rfl, ⟨[], by simp, by simp⟩,
        ⟨[], by simp, by simp [weightList], by simp⟩, Or.inl rfl⟩
    · rw [if_neg hf]
      exact ⟨⟨[], by simp⟩, rfl, rfl, ⟨[.warnNoExtractor], rfl, by simp [notRunLevel]⟩,
        ⟨[], by simp, by simp [weightList], by simp⟩, Or.inl rfl⟩
  | cons ex rest ih =>
    intro metaRef found s
    cases hs : extractorStep env url ex metaRef s with
    | error p =>
      obtain ⟨s2, e⟩ := p
      have hunfold : extractorLoop env url (ex :: rest) metaRef found s = (s2, some e) := by
        simp only [extractorLoop, hs]
      obtain ⟨happ, hproc, hdry, heff, hpages, ⟨msg, hmsg⟩⟩ :=
        extractorStep_error_spec env url ex metaRef s s2 e hs
      rw [hunfold]
      exact ⟨happ, hproc, hdry, heff,
        ⟨[], by simp [hpages], by simp, by simp⟩, Or.inr ⟨msg, by simp [hmsg]⟩⟩
    | ok p =>
      obtain ⟨s2, metaRef2, mh⟩ := p
      have hunfold : extractorLoop env url (ex :: rest) metaRef found s
          = extractorLoop env url rest metaRef2 (found || mh) s2 := by
        simp only [extractorLoop, hs]
      obtain ⟨⟨app1, happ1⟩, hproc1, hdry1, ⟨Δ1, hΔ1, hall1⟩,
        ⟨pushed1, hpages1, hlen1, hmem1⟩⟩ :=
        extractorStep_ok_spec env url ex metaRef s s2 metaRef2 mh hs
      obtain ⟨⟨app2, happ2⟩, hproc2, hdry2, ⟨Δ2, hΔ2, hall2⟩,
        ⟨pushed2, hpages2, hlen2, hmem2⟩, herr2⟩ := ih metaRef2 (found || mh) s2
      rw [hunfold]
      refine ⟨⟨app1 ++ app2, ?_⟩, by rw [hproc2, hproc1], by rw [hdry2, hdry1],
        ⟨Δ1 ++ Δ2, ?_, ?_⟩, ⟨pushed1 ++ pushed2, ?_, ?_, ?_⟩, herr2⟩
      · rw [happ2, happ1, List.append_assoc]
      · rw [hΔ2, hΔ1, List.append_assoc]
      · intro ε hε
        rcases List.mem_append.mp hε with h1 | h1
        · exact hall1 ε h1
        · exact hall2 ε h1
      · rw [hpages2, hpages1, List.append_assoc]
      · rw [weightList_cons]
        simp only [List.length_append]
        omega
      · intro p hp
        rcases List.mem_append.mp hp with h1 | h1
        · obtain ⟨l, hl, hpl⟩ := hmem1 p h1
          exact ⟨ex, List.mem_cons_self ex rest, l, hl, hpl⟩
        · obtain ⟨ex2, hex2, l, hl, hpl⟩ := hmem2 p h1
          exact ⟨ex2, List.mem_cons_of_mem ex hex2, l, hl, hpl⟩

/-! ## Page-processing characterization -/

theorem _processPage_visited (env : Env) (s : DLState) (entry : PageEntry)
    (rest : List PageEntry) (h1 : s.pages = entry :: rest)
    (h2 : entry.url ∈ s.processedPages) :
    _processPage env s
      = ({ s with
            pages := rest
            store := (stampEntry s.store entry).2
            effects := s.effects ++ [Effect.debugSkipVisited entry.url] }, none) := by
  rcases s with ⟨pages, proc, store, effs, dry⟩
  simp only at h1 h2
  subst h1
  simp only [_processPage]
  rw [if_pos h2]

theorem _processPage_unvisited (env : Env) (s : DLState) (entry : PageEntry)
    (rest : List PageEntry) (h1 : s.pages = entry :: rest)
    (h2 : entry.url ∉ s.processedPages) :
    ∃ Δ pushed app,
      (_processPage env s).1.pages = rest ++ pushed
      ∧ (_processPage env s).1.processedPages = s.processedPages ++ [entry.url]
      ∧ (_processPage env s).1.store = (stampEntry s.store entry).2 ++ app
      ∧ (_processPage env s).1.effects = s.effects ++ Effect.fetchPage entry.url :: Δ
      ∧ (_processPage env s).1.dryrun = s.dryrun
      ∧ (∀ ε ∈ Δ, notRunLevel ε = true)
      ∧ pushed.length ≤ pageWeight env entry.url
      ∧ (∀ p ∈ pushed, ∃ ex ∈ env.extractors, ∃ l,
          ex.pageUrls entry.url = Except.ok l ∧ p.url ∈ l)
      ∧ ((_processPage env s).2 = none
          ∨ ∃ msg, (_processPage env s).2 = some (.external msg)) := by
  rcases s with ⟨pages, proc, store, effs, dry⟩
  simp only at h1 h2
  subst h1
  simp only [_processPage]
  rw [if_neg h2]
  cases hf : env.fetchPage entry.url with
  | error e =>
    refine ⟨[], [], [], by simp, by simp, by simp, by simp, by simp, by simp,
      by simp [pageWeight], by simp, Or.inr ⟨e, rfl⟩⟩
  | ok u =>
    obtain ⟨⟨app, happ⟩, hproc, hdry, ⟨Δ, hΔ, hall⟩, ⟨pushed, hpages, hlen, hmem⟩, herr⟩ :=
      extractorLoop_spec env entry.url env.extractors (stampEntry store entry).1 false
        { pages := rest, processedPages := proc ++ [entry.url],
          store := (stampEntry store entry).2,
          effects := effs ++ [.fetchPage entry.url], dryrun := dry }
    refine ⟨Δ, pushed, app, by simpa using hpages, by simpa using hproc,
      by simpa using happ, ?_, by simpa using hdry, hall, ?_, hmem, herr⟩
    · rw [hΔ]
      simp
    · simpa [pageWeight] using hlen

/-! ## Run-loop lemmas -/

theorem errLogEffect_ne_fetch (e : PDError) (u : String) :
    errLogEffect e ≠ Effect.fetchPage u := by
  cases e <;> simp [errLogEffect]

theorem loopBody_ok (env : Env) (s s2 : DLState) (h : _processPage env s = (s2, none)) :
    loopBody env s = s2 := by
  simp [loopBody, h]

theorem loopBody_err (env : Env) (s s2 : DLState) (e : PDError)
    (h : _processPage env s = (s2, some e)) :
    loopBody env s = { s2 with effects := s2.effects ++ [errLogEffect e] } := by
  simp [loopBody, h]

theorem loopBody_main (env : Env) (s : DLState) (entry : PageEntry) (rest : List PageEntry)
    (h1 : s.pages = entry :: rest) :
    (entry.url ∈ s.processedPages
      ∧ (loopBody env s).pages = rest
      ∧ (loopBody env s).processedPages = s.processedPages)
    ∨ (entry.url ∉ s.processedPages
      ∧ ∃ pushed, (loopBody env s).pages = rest ++ pushed
        ∧ pushed.length ≤ pageWeight env entry.url
        ∧ (∀ p ∈ pushed, ∃ ex ∈ env.extractors, ∃ l,
            ex.pageUrls entry.url = Except.ok l ∧ p.url ∈ l)
        ∧ (loopBody env s).processedPages = s.processedPages ++ [entry.url]) := by
  by_cases hv : entry.url ∈ s.processedPages
  · left
    rw [loopBody_ok env s _ (_processPage_visited env s entry rest h1 hv)]
    exact ⟨hv, rfl, rfl⟩
  · right
    obtain ⟨Δ, pushed, app, hpages, hproc, hstore, heff, hdry, hall, hlen, hmem, herr⟩ :=
      _processPage_unvisited env s entry rest h1 hv
    rcases hp : _processPage env s with ⟨s2, err⟩
    rw [hp] at hpages hproc hstore heff hdry herr
    refine ⟨hv, pushed, ?_, hlen, hmem, ?_⟩
    · cases err with
      | none => rw [loopBody_ok env s s2 hp]; exact hpages
      | some e => rw [loopBody_err env s s2 e hp]; exact hpages
    · cases err with
      | none => rw [loopBody_ok env s s2 hp]; exact hproc
      | some e => rw [loopBody_err env s s2 e hp]; exact hproc

theorem loopBody_effects_delta (env : Env) (s : DLState) (entry : PageEntry)
    (rest : List PageEntry) (h1 : s.pages = entry :: rest) :
    ∃ Δ, (loopBody env s).effects = s.effects ++ Δ
      ∧ (∀ u, Effect.fetchPage u ∈ Δ → u = entry.url ∧ entry.url ∉ s.processedPages)
      ∧ countFetch Δ entry.url ≤ 1
      ∧ (entry.url ∉ s.processedPages → entry.url ∈ (loopBody env s).processedPages)
      ∧ s.processedPages <+: (loopBody env s).processedPages := by
  by_cases hv : entry.url ∈ s.processedPages
  · rw [loopBody_ok env s _ (_processPage_visited env s entry rest h1 hv)]
    refine ⟨[Effect.debugSkipVisited entry.url], rfl, ?_, ?_, fun hc => absurd hv hc, by simp⟩
    · intro u hu
      simp at hu
    · simp [countFetch]
  · obtain ⟨Δ, pushed, app, hpages, hproc, hstore, heff, hdry, hall, hlen, hmem, herr⟩ :=
      _processPage_unvisited env s entry rest h1 hv
    rcases hp : _processPage env s with ⟨s2, err⟩
    rw [hp] at hpages hproc hstore heff hdry herr
    dsimp only at hpages hproc hstore heff hdry herr
    have hnotfetch : ∀ u, Effect.fetchPage u ∈ Δ → False := by
      intro u hu
      have := hall _ hu
      simp [notRunLevel] at this
    have hcount : ∀ Δ2, (∀ u, Effect.fetchPage u ∈ Δ2 → u = entry.url ∧ entry.url ∉ s.processedPages) →
        countFetch Δ2 entry.url ≤ 1 → True := fun _ _ _ => trivial
    cases err with
    | none =>
      rw [loopBody_ok env s s2 hp]
      refine ⟨Effect.fetchPage entry.url :: Δ, heff, ?_, ?_, ?_, ?_⟩
      · intro u hu
        rcases List.mem_cons.mp hu with he | he
        · exact ⟨Effect.fetchPage.inj he, hv⟩
        · exact absurd he (fun c => hnotfetch u c)
      · simp only [countFetch, List.count_cons]
        have : List.count (Effect.fetchPage entry.url) Δ = 0 := by
          rw [List.count_eq_zero]
          exact fun c => hnotfetch entry.url c
        simp [this]
      · intro _
        rw [hproc]
        simp
      · rw [hproc]
        simp
    | some e =>
      rw [loopBody_err env s s2 e hp]
      refine ⟨Effect.fetchPage entry.url :: (Δ ++ [errLogEffect e]), ?_, ?_, ?_, ?_, ?_⟩
      · simp [heff]
      · intro u hu
        rcases List.mem_cons.mp hu with he | he
        · exact ⟨Effect.fetchPage.inj he, hv⟩
        · rcases List.mem_append.mp he with he2 | he2
          · exact absurd he2 (fun c => hnotfetch u c)
          · simp at he2
            exact absurd he2.symm (errLogEffect_ne_fetch e u)
      · simp only [countFetch, List.count_cons]
        have h0 : List.count (Effect.fetchPage entry.url) Δ = 0 := by
          rw [List.count_eq_zero]
          exact fun c => hnotfetch entry.url c
        have h02 : List.count (Effect.fetchPage entry.url) [errLogEffect e] = 0 := by
          rw [List.count_eq_zero]
          intro c
          simp at c
          exact errLogEffect_ne_fetch e entry.url c.symm
        simp [List.count_append, h0, h02]
      · intro _
        rw [hproc]
        simp
      · rw [hproc]
        simp

theorem runFuel_empty (env : Env) (s : DLState) (h : s.pages = []) (n : Nat) :
    runFuel env n s = s := by
  cases n with
  | zero => rfl
  | succ n => simp [runFuel, h]

theorem runFuel_succ (env : Env) (s : DLState) (n : Nat) (h : s.pages ≠ []) :
    runFuel env (n + 1) s = runFuel env n (loopBody env s) := by
  simp only [runFuel]
  rw [if_neg (by simpa [List.isEmpty_iff] using h)]

/-! ## Claim C1: idempotent visitation -/

theorem fetchInv_loopBody (env : Env) (s : DLState) (entry : PageEntry)
    (rest : List PageEntry) (h1 : s.pages = entry :: rest)
    (hc : ∀ u, countFetch s.effects u ≤ 1)
    (hm : ∀ u, Effect.fetchPage u ∈ s.effects → u ∈ s.processedPages) :
    (∀ u, countFetch (loopBody env s).effects u ≤ 1)
    ∧ (∀ u, Effect.fetchPage u ∈ (loopBody env s).effects
        → u ∈ (loopBody env s).processedPages) := by
  obtain ⟨Δ, heff, hfetchΔ, hcountΔ, hmarked, hprefix⟩ :=
    loopBody_effects_delta env s entry rest h1
  constructor
  · intro u
    unfold countFetch
    rw [heff, List.count_append]
    by_cases hu : u = entry.url ∧ entry.url ∉ s.processedPages
    · obtain ⟨rfl, hnv⟩ := hu
      have h0 : List.count (Effect.fetchPage entry.url) s.effects = 0 := by
        rw [List.count_eq_zero]
        intro c
        exact hnv (hm entry.url c)
      have h2 := hcountΔ
      unfold countFetch at h2
      omega
    · have h0 : List.count (Effect.fetchPage u) Δ = 0 := by
        rw [List.count_eq_zero]
        intro c
        exact hu (hfetchΔ u c)
      have h2 := hc u
      unfold countFetch at h2
      omega
  · intro u hu
    rw [heff] at hu
    rcases List.mem_append.mp hu with h2 | h2
    · exact hprefix.subset (hm u h2)
    · obtain ⟨rfl, hnv⟩ := hfetchΔ u h2
      exact hmarked hnv

theorem fetchInv_runFuel (env : Env) :
    ∀ (n : Nat) (s : DLState),
      (∀ u, countFetch s.effects u ≤ 1) →
      (∀ u, Effect.fetchPage u ∈ s.effects → u ∈ s.processedPages) →
      (∀ u, countFetch (runFuel env n s).effects u ≤ 1)
      ∧ (∀ u, Effect.fetchPage u ∈ (runFuel env n s).effects
          → u ∈ (runFuel env n s).processedPages)
      ∧ s.processedPages <+: (runFuel env n s).processedPages := by
  intro n
  induction n with
  | zero => exact fun s hc hm => ⟨hc, hm, List.prefix_rfl⟩
  | succ n ih =>
    intro s hc hm
    cases hps : s.pages with
    | nil =>
      rw [runFuel_empty env s hps]
      exact ⟨hc, hm, List.prefix_rfl⟩
    | cons entry rest =>
      rw [runFuel_succ env s n (by simp [hps])]
      obtain ⟨hc2, hm2⟩ := fetchInv_loopBody env s entry rest hps hc hm
      obtain ⟨_, _, _, _, _, hprefix⟩ := loopBody_effects_delta env s entry rest hps
      obtain ⟨hc3, hm3, hpre3⟩ := ih (loopBody env s) hc2 hm2
      exact ⟨hc3, hm3, hprefix.trans hpre3⟩

/-- C1: during any run from a state with an empty effect trace, every URL
is fetched (and hence run through the extractor pipeline, which happens
only directly after its fetch) at most once; the visited set only ever
grows; and any fetched URL has been marked visited by the time its fetch
is recorded — the mark happens before the fetch and before any extractor
runs. -/
theorem claim1_visited_once (env : Env) (s0 : DLState) (h0 : s0.effects = [])
    (n : Nat) (u : String) :
    countFetch (runFuel env n s0).effects u ≤ 1
    ∧ s0.processedPages <+: (runFuel env n s0).processedPages
    ∧ (Effect.fetchPage u ∈ (runFuel env n s0).effects
        → u ∈ (runFuel env n s0).processedPages) := by
  have base1 : ∀ v, countFetch s0.effects v ≤ 1 := by
    intro v
    simp [h0, countFetch]
  have base2 : ∀ v, Effect.fetchPage v ∈ s0.effects → v ∈ s0.processedPages := by
    intro v hv
    rw [h0] at hv
    exact absurd hv (List.not_mem_nil _)
  obtain ⟨hc, hm, hpre⟩ := fetchInv_runFuel env n s0 base1 base2
  exact ⟨hc u, hpre, hm u⟩

/-- Witness for C1 at a concrete configuration: one seed page discovered
twice would still be fetched once; here we check the whole property at the
concrete two-step run of the sibling-discovery environment. -/
theorem claim1_visited_once_witness :
    stSeed.effects = []
    ∧ (countFetch (runFuel envC2 3 stSeed).effects "https://p/" ≤ 1
      ∧ stSeed.processedPages <+: (runFuel envC2 3 stSeed).processedPages
      ∧ (Effect.fetchPage "https://p/" ∈ (runFuel envC2 3 stSeed).effects
          → "https://p/" ∈ (runFuel envC2 3 stSeed).processedPages)) :=
  ⟨rfl, claim1_visited_once envC2 stSeed rfl 3 "https://p/"⟩

/-! ## Claim C4: per-page error containment -/

/-- C4: the per-page catch in the run loop contains every page-processing
error — an error from `_processPage` is turned into a log entry and the
loop goes on — and the queue keeps draining: within the first `k`
iterations the first `k` already-queued work items are all dequeued, the
queue retaining exactly the remaining already-queued items plus whatever
was newly pushed. -/
theorem claim4_error_containment (env : Env) (s : DLState) (k : Nat)
    (hk : k ≤ s.pages.length) :
    (∃ pushed, (runFuel env k s).pages = s.pages.drop k ++ pushed)
    ∧ (∀ s2 e, _processPage env s = (s2, some e) →
        loopBody env s = { s2 with effects := s2.effects ++ [errLogEffect e] }) := by
  constructor
  · induction k generalizing s with
    | zero => exact ⟨[], by simp [runFuel]⟩
    | succ k ih =>
      cases hps : s.pages with
      | nil =>
        rw [hps] at hk
        simp at hk
      | cons entry rest =>
        rw [runFuel_succ env s k (by simp [hps])]
        have hstep : ∃ pushed1, (loopBody env s).pages = rest ++ pushed1 := by
          rcases loopBody_main env s entry rest hps with ⟨_, hp, _⟩ | ⟨_, pushed1, hp, _, _, _⟩
          · exact ⟨[], by simp [hp]⟩
          · exact ⟨pushed1, hp⟩
        obtain ⟨pushed1, hp1⟩ := hstep
        have hkrest : k ≤ rest.length := by
          rw [hps] at hk
          simp at hk
          omega
        have hlen2 : k ≤ (loopBody env s).pages.length := by
          rw [hp1]
          simp
          omega
        obtain ⟨pushed2, hp2⟩ := ih (loopBody env s) hlen2
        refine ⟨pushed1.drop (k - rest.length) ++ pushed2, ?_⟩
        rw [hp2, hp1, List.drop_append_of_le_length hkrest]
        simp [hps, Nat.sub_eq_zero_of_le hkrest, List.append_assoc]
  · intro s2 e h
    exact loopBody_err env s s2 e h

/-- Witness for C4 at a concrete one-item queue. -/
theorem claim4_error_containment_witness :
    1 ≤ stSeed.pages.length
    ∧ ((∃ pushed, (runFuel envC2 1 stSeed).pages = stSeed.pages.drop 1 ++ pushed)
      ∧ (∀ s2 e, _processPage envC2 stSeed = (s2, some e) →
          loopBody envC2 stSeed = { s2 with effects := s2.effects ++ [errLogEffect e] })) :=
  ⟨by decide, claim4_error_containment envC2 stSeed 1 (by decide)⟩

/-! ## Claim C9: termination over a finite URL universe -/

theorem unvisitedWeight_mark (env : Env) (U : List String) (p : List String) (u : String)
    (hU : U.Nodup) (hu : u ∈ U) (hnp : u ∉ p) :
    unvisitedWeight env U (p ++ [u]) + pageWeight env u = unvisitedWeight env U p := by
  induction U with
  | nil => cases hu
  | cons x t ih =>
    rw [List.nodup_cons] at hU
    rcases List.mem_cons.mp hu with rfl | hut
    · have hxnew : (!decide (u ∈ p ++ [u])) = false := by simp
      have hxold : (!decide (u ∈ p)) = true := by simp [hnp]
      have htail : t.filter (fun w => !decide (w ∈ p ++ [u]))
          = t.filter (fun w => !decide (w ∈ p)) := by
        apply List.filter_congr
        intro w hw
        have hwu : w ≠ u := fun he => hU.1 (he ▸ hw)
        simp [List.mem_append, hwu]
      simp only [unvisitedWeight, List.filter_cons, hxnew, hxold, Bool.false_eq_true,
        if_false, if_true, htail, List.map_cons, List.sum_cons]
      omega
    · have hxu : x ≠ u := fun he => hU.1 (he ▸ hut)
      have hxcond : (!decide (x ∈ p ++ [u])) = (!decide (x ∈ p)) := by
        simp [List.mem_append, hxu]
      have hih := ih hU.2 hut
      simp only [unvisitedWeight, List.filter_cons, hxcond]
      cases hxm : (!decide (x ∈ p)) with
      | false =>
        simp only [Bool.false_eq_true, if_false]
        unfold unvisitedWeight at hih
        exact hih
      | true =>
        simp only [if_true, List.map_cons, List.sum_cons]
        unfold unvisitedWeight at hih
        omega

theorem crawlMeasure_decrease (env : Env) (U : List String) (hU : U.Nodup)
    (s : DLState) (entry : PageEntry) (rest : List PageEntry)
    (hps : s.pages = entry :: rest) (hseed : ∀ p ∈ s.pages, p.url ∈ U) :
    crawlMeasure env U (loopBody env s) < crawlMeasure env U s := by
  rcases loopBody_main env s entry rest hps with ⟨hv, hp, hproc⟩
    | ⟨hv, pushed, hp, hlen, hmem, hproc⟩
  · unfold crawlMeasure
    rw [hp, hproc, hps]
    simp
  · unfold crawlMeasure
    have hu : entry.url ∈ U := hseed entry (by rw [hps]; exact List.mem_cons_self _ _)
    have hmark := unvisitedWeight_mark env U s.processedPages entry.url hU hu hv
    rw [hp, hproc, hps]
    simp only [List.length_append, List.length_cons]
    omega

theorem inv_loopBody (env : Env) (U : List String) (s : DLState) (entry : PageEntry)
    (rest : List PageEntry) (hps : s.pages = entry :: rest)
    (hseed : ∀ p ∈ s.pages, p.url ∈ U)
    (hemit : ∀ ex ∈ env.extractors, ∀ u l, ex.pageUrls u = Except.ok l → ∀ v ∈ l, v ∈ U) :
    ∀ p ∈ (loopBody env s).pages, p.url ∈ U := by
  rcases loopBody_main env s entry rest hps with ⟨hv, hp, hproc⟩
    | ⟨hv, pushed, hp, hlen, hmem, hproc⟩
  · rw [hp]
    intro p hpmem
    exact hseed p (by rw [hps]; exact List.mem_cons_of_mem entry hpmem)
  · rw [hp]
    intro p hpmem
    rcases List.mem_append.mp hpmem with h2 | h2
    · exact hseed p (by rw [hps]; exact List.mem_cons_of_mem entry h2)
    · obtain ⟨ex, hex, l, hl, hpl⟩ := hmem p h2
      exact hemit ex hex entry.url l hl p.url hpl

theorem drainAux (env : Env) (U : List String) (hU : U.Nodup)
    (hemit : ∀ ex ∈ env.extractors, ∀ u l, ex.pageUrls u = Except.ok l → ∀ v ∈ l, v ∈ U) :
    ∀ (m : Nat) (s : DLState), crawlMeasure env U s ≤ m → (∀ p ∈ s.pages, p.url ∈ U) →
      ∃ n, (runFuel env n s).pages = [] := by
  intro m
  induction m with
  | zero =>
    intro s hm hseed
    have hlen : s.pages.length = 0 := by
      unfold crawlMeasure at hm
      omega
    exact ⟨0, List.length_eq_zero.mp hlen⟩
  | succ m ih =>
    intro s hm hseed
    cases hps : s.pages with
    | nil => exact ⟨0, hps⟩
    | cons entry rest =>
      have hdec := crawlMeasure_decrease env U hU s entry rest hps hseed
      have hinv := inv_loopBody env U s entry rest hps hseed hemit
      obtain ⟨n, hn⟩ := ih (loopBody env s) (by omega) hinv
      exact ⟨n + 1, by rw [runFuel_succ env s n (by simp [hps])]; exact hn⟩

theorem runFuel_add (env : Env) :
    ∀ (a b : Nat) (s : DLState), runFuel env (a + b) s = runFuel env b (runFuel env a s) := by
  intro a
  induction a with
  | zero =>
    intro b s
    simp [runFuel]
  | succ a ih =>
    intro b s
    cases hps : s.pages with
    | nil =>
      rw [runFuel_empty env s hps, runFuel_empty env s hps, runFuel_empty env s hps]
    | cons entry rest =>
      have hne : s.pages ≠ [] := by simp [hps]
      have h1 : a + 1 + b = (a + b) + 1 := by omega
      rw [h1, runFuel_succ env s (a + b) hne, runFuel_succ env s a hne, ih b (loopBody env s)]

/-- C9: when every seed URL in the queue and every URL any extractor can
ever emit lie in one finite universe `U` (without duplicates), the run
terminates: some number of loop iterations empties the queue, and further
iterations change nothing. -/
theorem claim9_termination (env : Env) (s : DLState) (U : List String) (hU : U.Nodup)
    (hseed : ∀ p ∈ s.pages, p.url ∈ U)
    (hemit : ∀ ex ∈ env.extractors, ∀ u l, ex.pageUrls u = Except.ok l → ∀ v ∈ l, v ∈ U) :
    ∃ n, (runFuel env n s).pages = [] ∧ ∀ k, runFuel env (n + k) s = runFuel env n s := by
  obtain ⟨n, hn⟩ := drainAux env U hU hemit (crawlMeasure env U s) s (Nat.le_refl _) hseed
  refine ⟨n, hn, ?_⟩
  intro k
  rw [runFuel_add env n k s, runFuel_empty env _ hn k]

/-- Witness for C9: the sibling-discovery crawl over the three-URL
universe terminates with an empty queue. -/
theorem claim9_termination_witness :
    (["https://p/", "https://c1/", "https://c2/"] : List String).Nodup
    ∧ ∃ n, (runFuel envC2 n stSeed).pages = []
      ∧ ∀ k, runFuel envC2 (n + k) stSeed = runFuel envC2 n stSeed :=
  ⟨by decide, claim9_termination envC2 stSeed ["https://p/", "https://c1/", "https://c2/"]
    (by decide) (by decide)
    (by
      intro ex hex u l hl v hv
      simp only [envC2, exC2] at hex
      rcases List.mem_cons.mp hex with rfl | hc
      · simp only at hl
        by_cases hu : u = "https://p/"
        · rw [if_pos hu] at hl
          injection hl with hl2
          subst hl2
          rcases List.mem_cons.mp hv with rfl | hv2
          · simp
          · rcases List.mem_cons.mp hv2 with rfl | hv3
            · simp
            · exact absurd hv3 (List.not_mem_nil v)
        · rw [if_neg hu] at hl
          injection hl with hl2
          subst hl2
          exact absurd hv (List.not_mem_nil v)
      · exact absurd hc (List.not_mem_nil ex))⟩

/-! ## Claim C7: the empty-queue pop is caught, unreachable, and never logged -/

theorem _saveFiles_writeInfo_mem (env : Env) (c : JSValue) (d : Bool) (fus : List String)
    (m : Obj) (effs : List Effect) :
    Effect.writeInfo (_getSaveDir env c m) m ∈ (_saveFiles env c d fus m effs).1 := by
  unfold _saveFiles
  obtain ⟨Δ, hΔ, _⟩ := saveFilesLoop_effects env c d (_getSaveDir env c m) fus
    (effs ++ [.mkdirRec (_getSaveDir env c m), .writeInfo (_getSaveDir env c m) m])
  rw [hΔ]
  simp

theorem _processPage_err_nonempty (env : Env) (s : DLState) (entry : PageEntry)
    (rest : List PageEntry) (hps : s.pages = entry :: rest) :
    (_processPage env s).2 = none ∨ ∃ msg, (_processPage env s).2 = some (.external msg) := by
  by_cases hv : entry.url ∈ s.processedPages
  · rw [_processPage_visited env s entry rest hps hv]
    exact Or.inl rfl
  · obtain ⟨_, _, _, _, _, _, _, _, _, _, _, herr⟩ :=
      _processPage_unvisited env s entry rest hps hv
    exact herr

theorem loopBody_no_nullEntry_log (env : Env) (s : DLState) (entry : PageEntry)
    (rest : List PageEntry) (hps : s.pages = entry :: rest)
    (h : Effect.logNullEntry ∉ s.effects) :
    Effect.logNullEntry ∉ (loopBody env s).effects := by
  by_cases hv : entry.url ∈ s.processedPages
  · rw [loopBody_ok env s _ (_processPage_visited env s entry rest hps hv)]
    intro hc
    simp only [List.mem_append] at hc
    rcases hc with hc | hc
    · exact h hc
    · simp at hc
  · obtain ⟨Δ, pushed, app, hpages, hproc, hstore, heff, hdry, hall, hlen, hmem, herr⟩ :=
      _processPage_unvisited env s entry rest hps hv
    rcases hp : _processPage env s with ⟨s2, err⟩
    rw [hp] at hpages hproc hstore heff hdry herr
    dsimp only at hpages hproc hstore heff hdry herr
    have hΔnull : Effect.logNullEntry ∉ Δ := by
      intro hc
      have := hall _ hc
      simp [notRunLevel] at this
    cases err with
    | none =>
      rw [loopBody_ok env s s2 hp, heff]
      intro hc
      rcases List.mem_append.mp hc with hc | hc
      · exact h hc
      · rcases List.mem_cons.mp hc with hc | hc
        · exact Effect.noConfusion hc
        · exact hΔnull hc
    | some e =>
      obtain ⟨msg, hmsg⟩ : ∃ msg, e = PDError.external msg := by
        rcases herr with h0 | ⟨msg, hm2⟩
        · exact Option.noConfusion h0
        · exact ⟨msg, by injection hm2⟩
      rw [loopBody_err env s s2 e hp]
      intro hc
      simp only [List.mem_append] at hc
      rcases hc with hc | hc
      · rw [heff] at hc
        rcases List.mem_append.mp hc with hc | hc
        · exact h hc
        · rcases List.mem_cons.mp hc with hc | hc
          · exact Effect.noConfusion hc
          · exact hΔnull hc
      · rw [hmsg] at hc
        simp [errLogEffect] at hc

theorem runFuel_no_nullEntry_log (env : Env) :
    ∀ (n : Nat) (s : DLState), Effect.logNullEntry ∉ s.effects →
      Effect.logNullEntry ∉ (runFuel env n s).effects := by
  intro n
  induction n with
  | zero => exact fun s h => h
  | succ n ih =>
    intro s h
    cases hps : s.pages with
    | nil =>
      rw [runFuel_empty env s hps]
      exact h
    | cons entry rest =>
      rw [runFuel_succ env s n (by simp [hps])]
      exact ih (loopBody env s) (loopBody_no_nullEntry_log env s entry rest hps h)

/-- C7 corrected: popping from an empty queue does raise the internal
null-entry error, but it is unreachable from `run()` — the loop guard
dequeues only from a nonempty queue, on a nonempty queue `_processPage`
can only fail with an external (collaborator/hook) error, and the
null-entry error is never logged during any run; and were it raised it
would be swallowed by the same per-page catch as every other error, so
`run()` never aborts and surfaces no error. -/
theorem claim7_null_entry_contained (env : Env) (s : DLState) (n : Nat)
    (h : Effect.logNullEntry ∉ s.effects) :
    (s.pages = [] → _processPage env s = (s, some PDError.nullEntry))
    ∧ (s.pages ≠ [] → (_processPage env s).2 ≠ some PDError.nullEntry)
    ∧ Effect.logNullEntry ∉ (runFuel env n s).effects := by
  refine ⟨?_, ?_, runFuel_no_nullEntry_log env n s h⟩
  · intro hps
    rcases s with ⟨pages, proc, store, effs, dry⟩
    simp only at hps
    subst hps
    rfl
  · intro hps
    cases hps2 : s.pages with
    | nil => exact absurd hps2 hps
    | cons entry rest =>
      rcases _processPage_err_nonempty env s entry rest hps2 with h0 | ⟨msg, hmsg⟩
      · rw [h0]
        exact fun c => Option.noConfusion c
      · rw [hmsg]
        intro c
        injection c with c2
        exact PDError.noConfusion c2

/-- Witness for C7 at a concrete run. -/
theorem claim7_null_entry_contained_witness :
    Effect.logNullEntry ∉ stSeed.effects
    ∧ ((stSeed.pages = [] → _processPage envC2 stSeed = (stSeed, some PDError.nullEntry))
      ∧ (stSeed.pages ≠ [] → (_processPage envC2 stSeed).2 ≠ some PDError.nullEntry)
      ∧ Effect.logNullEntry ∉ (runFuel envC2 4 stSeed).effects) :=
  ⟨by decide, claim7_null_entry_contained envC2 stSeed 4 (by decide)⟩

/-- C7 counterexample: the claim says the empty-queue pop error is fatal
and aborts the run — but the loop body's catch swallows it like any other
error: on an empty-queue state `_processPage` raises the null-entry error
and the loop body completes normally, merely logging it; `run` itself
returns normally. -/
theorem claim7_counterexample :
    _processPage envEmpty stEmpty = (stEmpty, some PDError.nullEntry)
    ∧ loopBody envEmpty stEmpty = { stEmpty with effects := [Effect.logNullEntry] }
    ∧ run envEmpty none 5 stEmpty = stEmpty := by
  refine ⟨rfl, ?_, ?_⟩ <;> decide

/-! ## Single matching extractor: exact result of one page step -/

theorem singleExtractor_processPage (env : Env) (s : DLState) (u : String) (r : Nat)
    (rest : List PageEntry) (ex : ExtractorM) (e : Obj) (fus pus : List String)
    (hpages : s.pages = ⟨u, some r⟩ :: rest)
    (hr : r < s.store.length)
    (hvis : u ∉ s.processedPages)
    (hfetch : env.fetchPage u = Except.ok ())
    (hexs : env.extractors = [ex])
    (hmatch : ex.matched = none)
    (hext : ex.extract u = Except.ok e)
    (hfus : ex.fileUrls u = Except.ok fus)
    (hpus : ex.pageUrls u = Except.ok pus)
    (hfn : ∀ f ∈ fus, ∃ nm, _getFilename ex.options env.options (env.decodeURI f)
      = Except.ok nm) :
    (loopBody env s).pages = rest ++ pus.map (fun v => PageEntry.mk v (some s.store.length))
    ∧ storeGet (loopBody env s).store s.store.length
        = objAssign (objSet (storeGet s.store r) "url" (MetaVal.s u)) e
    ∧ Effect.writeInfo
        (_getSaveDir env ex.options (objAssign (objSet (storeGet s.store r) "url" (MetaVal.s u)) e))
        (objAssign (objSet (storeGet s.store r) "url" (MetaVal.s u)) e)
        ∈ (loopBody env s).effects := by
  rcases s with ⟨pages, proc, store, effs, dry⟩
  simp only at hpages hvis hr ⊢
  subst hpages
  have hmerged : storeGet (storeSet store r "url" (MetaVal.s u)) r
      = objSet (storeGet store r) "url" (MetaVal.s u) :=
    storeGet_storeSet_self store r "url" (MetaVal.s u) hr
  have hsv2 : (_saveFiles env ex.options dry fus
      (objAssign (storeGet (storeSet store r "url" (MetaVal.s u)) r) e)
      (effs ++ [Effect.fetchPage u])).2 = none := by
    unfold _saveFiles
    exact saveFilesLoop_none env ex.options dry _ fus _ hfn
  rcases hsv : _saveFiles env ex.options dry fus
      (objAssign (storeGet (storeSet store r "url" (MetaVal.s u)) r) e)
      (effs ++ [Effect.fetchPage u]) with ⟨effs2, err2⟩
  have herr2 : err2 = none := by
    rw [hsv] at hsv2
    exact hsv2
  subst herr2
  have hwi : Effect.writeInfo
      (_getSaveDir env ex.options (objAssign (storeGet (storeSet store r "url" (MetaVal.s u)) r) e))
      (objAssign (storeGet (storeSet store r "url" (MetaVal.s u)) r) e) ∈ effs2 := by
    have := _saveFiles_writeInfo_mem env ex.options dry fus
      (objAssign (storeGet (storeSet store r "url" (MetaVal.s u)) r) e)
      (effs ++ [Effect.fetchPage u])
    rw [hsv] at this
    exact this
  have hstep : extractorStep env u ex r
      { pages := rest, processedPages := proc ++ [u],
        store := storeSet store r "url" (MetaVal.s u),
        effects := effs ++ [Effect.fetchPage u], dryrun := dry }
      = .ok ({ pages := rest ++ pus.map (fun v => PageEntry.mk v
                (some (storeSet store r "url" (MetaVal.s u)).length)),
               processedPages := proc ++ [u],
               store := storeSet store r "url" (MetaVal.s u)
                 ++ [objAssign (storeGet (storeSet store r "url" (MetaVal.s u)) r) e],
               effects := effs2, dryrun := dry },
             (storeSet store r "url" (MetaVal.s u)).length, true) := by
    simp only [extractorStep, hmatch, hext, hfus, hpus, hsv]
  have hproc2 : _processPage env
      ⟨⟨u, some r⟩ :: rest, proc, store, effs, dry⟩
      = ({ pages := rest ++ pus.map (fun v => PageEntry.mk v
            (some (storeSet store r "url" (MetaVal.s u)).length)),
           processedPages := proc ++ [u],
           store := storeSet store r "url" (MetaVal.s u)
             ++ [objAssign (storeGet (storeSet store r "url" (MetaVal.s u)) r) e],
           effects := effs2, dryrun := dry }, none) := by
    simp only [_processPage, stampEntry]
    rw [if_neg hvis, hfetch]
    simp only [hexs, extractorLoop, hstep]
    rfl
  rw [loopBody_ok env _ _ hproc2]
  refine ⟨?_, ?_, ?_⟩
  · simp [length_storeSet]
  · rw [← hmerged]
    have hlen : (storeSet store r "url" (MetaVal.s u)).length = store.length :=
      length_storeSet store r "url" (MetaVal.s u)
    simp only
    rw [← hlen]
    exact storeGet_append_self _ _
  · simp only
    rw [hmerged] at hwi
    exact hwi

/-! ## Claim C2: sibling work items share one metadata object -/

/-- C2 counterexample: the extractor on the seed page discovers two
sibling links; the two queued work items carry the SAME object reference
(index 1), and when the first sibling is dequeued, the `metadata.url`
stamp mutates that shared object — the metadata carried by the other,
still-queued sibling changes from `url = https://p/` to
`url = https://c1/`, contradicting the claimed independence of queued
siblings. -/
theorem claim2_counterexample :
    stAfterSeed.pages = [⟨"https://c1/", some 1⟩, ⟨"https://c2/", some 1⟩]
    ∧ storeGet stAfterSeed.store 1 = [("url", MetaVal.s "https://p/")]
    ∧ stAfterC1.pages = [⟨"https://c2/", some 1⟩]
    ∧ storeGet stAfterC1.store 1 = [("url", MetaVal.s "https://c1/")] := by
  refine ⟨?_, ?_, ?_, ?_⟩ <;> decide

/-- C2 amended: all sibling pages discovered by one extractor application
are enqueued carrying a reference to the SAME merged-metadata object — no
copy is made — so the in-place `metadata.url` stamp performed when any one
of them is later dequeued is visible through every other queued sibling's
carried metadata. -/
theorem claim2_shared_metadata (env : Env) (s : DLState) (u : String) (r : Nat)
    (rest : List PageEntry) (ex : ExtractorM) (e : Obj) (fus pus : List String)
    (hpages : s.pages = ⟨u, some r⟩ :: rest)
    (hr : r < s.store.length)
    (hvis : u ∉ s.processedPages)
    (hfetch : env.fetchPage u = Except.ok ())
    (hexs : env.extractors = [ex])
    (hmatch : ex.matched = none)
    (hext : ex.extract u = Except.ok e)
    (hfus : ex.fileUrls u = Except.ok fus)
    (hpus : ex.pageUrls u = Except.ok pus)
    (hfn : ∀ f ∈ fus, ∃ nm, _getFilename ex.options env.options (env.decodeURI f)
      = Except.ok nm) :
    (loopBody env s).pages = rest ++ pus.map (fun v => PageEntry.mk v (some s.store.length))
    ∧ (∀ p q, p ∈ pus.map (fun v => PageEntry.mk v (some s.store.length))
        → q ∈ pus.map (fun v => PageEntry.mk v (some s.store.length))
        → p.metaRef = q.metaRef)
    ∧ (∀ (st : List Obj) (i : Nat) (u2 : String), i < st.length →
        objLookup (storeGet (storeSet st i "url" (MetaVal.s u2)) i) "url"
          = some (MetaVal.s u2)) := by
  obtain ⟨hp, _, _⟩ := singleExtractor_processPage env s u r rest ex e fus pus
    hpages hr hvis hfetch hexs hmatch hext hfus hpus hfn
  refine ⟨hp, ?_, ?_⟩
  · intro p q hpm hqm
    obtain ⟨v1, _, rfl⟩ := List.mem_map.mp hpm
    obtain ⟨v2, _, rfl⟩ := List.mem_map.mp hqm
    rfl
  · intro st i u2 hi
    rw [storeGet_storeSet_self st i "url" (MetaVal.s u2) hi, objLookup_objSet]
    simp

/-- Witness for the amended C2 at the concrete sibling-discovery state. -/
theorem claim2_shared_metadata_witness :
    ("https://p/" ∉ stC3.processedPages ∧ 0 < stC3.store.length)
    ∧ ((loopBody envC2 stC3).pages
        = [] ++ (["https://c1/", "https://c2/"].map
            (fun v => PageEntry.mk v (some stC3.store.length)))
      ∧ (∀ p q, p ∈ (["https://c1/", "https://c2/"].map
            (fun v => PageEntry.mk v (some stC3.store.length)))
          → q ∈ (["https://c1/", "https://c2/"].map
              (fun v => PageEntry.mk v (some stC3.store.length)))
          → p.metaRef = q.metaRef)
      ∧ (∀ (st : List Obj) (i : Nat) (u2 : String), i < st.length →
          objLookup (storeGet (storeSet st i "url" (MetaVal.s u2)) i) "url"
            = some (MetaVal.s u2))) :=
  ⟨⟨by decide, by decide⟩,
    claim2_shared_metadata envC2 stC3 "https://p/" 0 [] exC2 [] []
      ["https://c1/", "https://c2/"] rfl (by decide) (by decide) rfl rfl rfl
      rfl rfl rfl (by simp)⟩

/-! ## Claim C3: metadata merge and the url stamp -/

/-- C3: for a dequeued page carrying metadata `m` whose matching extractor
extracts `e`, the object used for that extractor's file saves (written to
`info.json`) and carried by every page it enqueues is
`Object.assign(copy, m-stamped, e)`, where the stamp has first overwritten
`m.url` with the page's own URL; field-wise, `e` wins on name collision
and every other field of the stamped `m` persists; and the stamp at
dequeue time sets the metadata's `url` field to the dequeued page's own
URL, overwriting anything inherited. -/
theorem claim3_metadata_merge (env : Env) (s : DLState) (u : String) (r : Nat)
    (rest : List PageEntry) (ex : ExtractorM) (e : Obj) (fus pus : List String)
    (hpages : s.pages = ⟨u, some r⟩ :: rest)
    (hr : r < s.store.length)
    (hvis : u ∉ s.processedPages)
    (hfetch : env.fetchPage u = Except.ok ())
    (hexs : env.extractors = [ex])
    (hmatch : ex.matched = none)
    (hext : ex.extract u = Except.ok e)
    (hfus : ex.fileUrls u = Except.ok fus)
    (hpus : ex.pageUrls u = Except.ok pus)
    (hfn : ∀ f ∈ fus, ∃ nm, _getFilename ex.options env.options (env.decodeURI f)
      = Except.ok nm)
    (hnodup : (e.map Prod.fst).Nodup) :
    (loopBody env s).pages = rest ++ pus.map (fun v => PageEntry.mk v (some s.store.length))
    ∧ storeGet (loopBody env s).store s.store.length
        = objAssign (objSet (storeGet s.store r) "url" (MetaVal.s u)) e
    ∧ Effect.writeInfo
        (_getSaveDir env ex.options (objAssign (objSet (storeGet s.store r) "url" (MetaVal.s u)) e))
        (objAssign (objSet (storeGet s.store r) "url" (MetaVal.s u)) e)
        ∈ (loopBody env s).effects
    ∧ (∀ k, objLookup (objAssign (objSet (storeGet s.store r) "url" (MetaVal.s u)) e) k
        = (objLookup e k).or (objLookup (objSet (storeGet s.store r) "url" (MetaVal.s u)) k))
    ∧ objLookup (objSet (storeGet s.store r) "url" (MetaVal.s u)) "url"
        = some (MetaVal.s u) := by
  obtain ⟨hp, hst, hwi⟩ := singleExtractor_processPage env s u r rest ex e fus pus
    hpages hr hvis hfetch hexs hmatch hext hfus hpus hfn
  refine ⟨hp, hst, hwi, ?_, ?_⟩
  · intro k
    exact objLookup_objAssign _ e k hnodup
  · rw [objLookup_objSet]
    simp

/-- Witness for C3: parent metadata stamped with the page URL, extractor
field `a` merged on top, child queued with the merged object. -/
theorem claim3_metadata_merge_witness :
    (("https://p/" : String) ∉ stC3.processedPages
      ∧ ((([("a", MetaVal.s "1")] : Obj).map Prod.fst).Nodup))
    ∧ ((loopBody envC3 stC3).pages
        = [] ++ (["https://c/"].map (fun v => PageEntry.mk v (some stC3.store.length)))
      ∧ storeGet (loopBody envC3 stC3).store stC3.store.length
          = objAssign (objSet (storeGet stC3.store 0) "url" (MetaVal.s "https://p/"))
              [("a", MetaVal.s "1")]
      ∧ Effect.writeInfo
          (_getSaveDir envC3 exC3.options
            (objAssign (objSet (storeGet stC3.store 0) "url" (MetaVal.s "https://p/"))
              [("a", MetaVal.s "1")]))
          (objAssign (objSet (storeGet stC3.store 0) "url" (MetaVal.s "https://p/"))
            [("a", MetaVal.s "1")])
          ∈ (loopBody envC3 stC3).effects
      ∧ (∀ k, objLookup (objAssign (objSet (storeGet stC3.store 0) "url"
            (MetaVal.s "https://p/")) [("a", MetaVal.s "1")]) k
          = (objLookup [("a", MetaVal.s "1")] k).or
              (objLookup (objSet (storeGet stC3.store 0) "url" (MetaVal.s "https://p/")) k))
      ∧ objLookup (objSet (storeGet stC3.store 0) "url" (MetaVal.s "https://p/")) "url"
          = some (MetaVal.s "https://p/")) :=
  ⟨⟨by decide, by decide⟩,
    claim3_metadata_merge envC3 stC3 "https://p/" 0 [] exC3 [("a", MetaVal.s "1")] []
      ["https://c/"] rfl (by decide) (by decide) rfl rfl rfl rfl rfl
      rfl (by simp) (by decide)⟩

/-! ## Claim C5: filename-generation failure escalates past the file level -/

/-- C5 counterexample: `_getFilename` is called outside the per-file
`try`; with two file URLs of which the first yields an empty filename
(URL ending in `/`, default `nameLevel = 1`), `_saveFiles` throws after
the directory creation and snapshot write — the second, well-formed file
URL is never fetched or saved, contradicting "only that single file is
skipped, and saving continues with the remaining file URLs". -/
theorem claim5_counterexample :
    _saveFiles envC5 JSValue.vUndefined false
        ["https://ex.com/a/", "https://ex.com/b.jpg"] [] []
      = ([Effect.mkdirRec "./download", Effect.writeInfo "./download" []],
         some (PDError.external "failed to generate filename"))
    ∧ Effect.fetchFile "https://ex.com/b.jpg"
        ∉ (_saveFiles envC5 JSValue.vUndefined false
            ["https://ex.com/a/", "https://ex.com/b.jpg"] [] []).1 := by
  refine ⟨?_, ?_⟩ <;> decide

/-- C5 corrected: a filename-generation failure (empty tail-segment
result) throws out of the per-file loop: `_saveFiles` aborts at once —
the remaining file URLs of the same page are skipped, only the directory
creation and metadata snapshot having happened — and the error escapes
`_processPage` (so the failing page enqueues no page links), being caught
and logged only at the per-page boundary of the run loop, after which the
run continues with the pages already queued. -/
theorem claim5_filename_error_aborts_page (env : Env) (s : DLState) (u : String) (r : Nat)
    (rest : List PageEntry) (ex : ExtractorM) (e : Obj) (bad : String)
    (restFiles : List String) (msg : String)
    (hpages : s.pages = ⟨u, some r⟩ :: rest)
    (hvis : u ∉ s.processedPages)
    (hfetch : env.fetchPage u = Except.ok ())
    (hexs : env.extractors = [ex])
    (hmatch : ex.matched = none)
    (hext : ex.extract u = Except.ok e)
    (hfus : ex.fileUrls u = Except.ok (bad :: restFiles))
    (hbad : _getFilename ex.options env.options (env.decodeURI bad) = Except.error msg) :
    (∀ (m : Obj) (effs0 : List Effect) (d : Bool),
        _saveFiles env ex.options d (bad :: restFiles) m effs0
          = (effs0 ++ [Effect.mkdirRec (_getSaveDir env ex.options m),
              Effect.writeInfo (_getSaveDir env ex.options m) m],
             some (PDError.external msg)))
    ∧ (_processPage env s).2 = some (PDError.external msg)
    ∧ (_processPage env s).1.pages = rest
    ∧ loopBody env s = { (_processPage env s).1 with
        effects := (_processPage env s).1.effects ++ [Effect.logError msg] } := by
  have hsf : ∀ (m : Obj) (effs0 : List Effect) (d : Bool),
      _saveFiles env ex.options d (bad :: restFiles) m effs0
        = (effs0 ++ [Effect.mkdirRec (_getSaveDir env ex.options m),
            Effect.writeInfo (_getSaveDir env ex.options m) m],
           some (PDError.external msg)) := by
    intro m effs0 d
    unfold _saveFiles
    simp only [saveFilesLoop]
    have hstep : fileStep env ex.options d (_getSaveDir env ex.options m) bad
        = .error (.external msg) := by
      simp only [fileStep, hbad]
    rw [hstep]
  refine ⟨hsf, ?_⟩
  rcases s with ⟨pages, proc, store, effs, dry⟩
  simp only at hpages hvis ⊢
  subst hpages
  have hstep : ∃ s2, extractorStep env u ex (stampEntry store ⟨u, some r⟩).1
      { pages := rest
        processedPages := proc ++ [u]
        store := (stampEntry store ⟨u, some r⟩).2
        effects := effs ++ [Effect.fetchPage u]
        dryrun := dry }
      = .error (s2, PDError.external msg) ∧ s2.pages = rest := by
    simp only [extractorStep, hmatch, hext, hfus]
    rw [hsf]
    exact ⟨_, rfl, rfl⟩
  obtain ⟨s2, hs2, hs2p⟩ := hstep
  have hpp : _processPage env ⟨⟨u, some r⟩ :: rest, proc, store, effs, dry⟩
      = (s2, some (PDError.external msg)) := by
    simp only [_processPage]
    rw [if_neg hvis, hfetch]
    simp only [hexs, extractorLoop, hs2]
  rw [hpp]
  exact ⟨rfl, hs2p, loopBody_err env _ s2 _ hpp⟩

/-- Witness for the corrected C5 at the concrete two-file page. -/
theorem claim5_filename_error_aborts_page_witness :
    _getFilename exC5.options envC5.options (envC5.decodeURI "https://ex.com/a/")
      = Except.error "failed to generate filename"
    ∧ ((∀ (m : Obj) (effs0 : List Effect) (d : Bool),
        _saveFiles envC5 exC5.options d ["https://ex.com/a/", "https://ex.com/b.jpg"] m effs0
          = (effs0 ++ [Effect.mkdirRec (_getSaveDir envC5 exC5.options m),
              Effect.writeInfo (_getSaveDir envC5 exC5.options m) m],
             some (PDError.external "failed to generate filename")))
      ∧ (_processPage envC5 stC5).2 = some (PDError.external "failed to generate filename")
      ∧ (_processPage envC5 stC5).1.pages = [⟨"https://q/", none⟩]
      ∧ loopBody envC5 stC5 = { (_processPage envC5 stC5).1 with
          effects := (_processPage envC5 stC5).1.effects
            ++ [Effect.logError "failed to generate filename"] }) :=
  ⟨rfl,
    claim5_filename_error_aborts_page envC5 stC5 "https://p/" 0 [⟨"https://q/", none⟩]
      exC5 [] "https://ex.com/a/" ["https://ex.com/b.jpg"] "failed to generate filename"
      rfl (by decide) rfl rfl rfl rfl rfl rfl⟩

/-! ## Claim C10: dry-run still creates the directory and writes info.json -/

/-- C10: in dry-run mode `_saveFiles` still creates the save directory
(recursively) and writes the `info.json` metadata snapshot — both before
any per-file work — and the per-file loop performs no download and no file
write: each file yields either the existence/overwrite skip (that check
runs first) or the dry-run skip, as `dryrunFileEffect` records. -/
theorem claim10_dryrun (env : Env) (cur : JSValue) (m : Obj) (fus : List String)
    (effs0 : List Effect)
    (hok : ∀ f ∈ fus, ∃ nm, _getFilename cur env.options (env.decodeURI f) = Except.ok nm) :
    _saveFiles env cur true fus m effs0
      = (effs0 ++ [Effect.mkdirRec (_getSaveDir env cur m),
          Effect.writeInfo (_getSaveDir env cur m) m]
          ++ fus.map (dryrunFileEffect env cur (_getSaveDir env cur m)), none)
    ∧ (∀ f p, dryrunFileEffect env cur (_getSaveDir env cur m) f ≠ Effect.writeFile p)
    ∧ (∀ f v, dryrunFileEffect env cur (_getSaveDir env cur m) f ≠ Effect.fetchFile v) := by
  refine ⟨?_, ?_, ?_⟩
  · unfold _saveFiles
    rw [saveFilesLoop_dryrun env cur (_getSaveDir env cur m) fus _ hok]
  · intro f p
    simp only [dryrunFileEffect]
    split
    · exact fun c => Effect.noConfusion c
    · exact fun c => Effect.noConfusion c
  · intro f v
    simp only [dryrunFileEffect]
    split
    · exact fun c => Effect.noConfusion c
    · exact fun c => Effect.noConfusion c

/-- Witness for C10 on one concrete file URL. -/
theorem claim10_dryrun_witness :
    (∀ f ∈ ["https://ex.com/x.jpg"], ∃ nm,
        _getFilename JSValue.vNull envC2.options (envC2.decodeURI f) = Except.ok nm)
    ∧ (_saveFiles envC2 JSValue.vNull true ["https://ex.com/x.jpg"] [] []
        = ([] ++ [Effect.mkdirRec (_getSaveDir envC2 JSValue.vNull []),
            Effect.writeInfo (_getSaveDir envC2 JSValue.vNull []) []]
            ++ ["https://ex.com/x.jpg"].map
                (dryrunFileEffect envC2 JSValue.vNull (_getSaveDir envC2 JSValue.vNull [])), none)
      ∧ (∀ f p, dryrunFileEffect envC2 JSValue.vNull (_getSaveDir envC2 JSValue.vNull []) f
          ≠ Effect.writeFile p)
      ∧ (∀ f v, dryrunFileEffect envC2 JSValue.vNull (_getSaveDir envC2 JSValue.vNull []) f
          ≠ Effect.fetchFile v)) :=
  ⟨by
    intro f hf
    simp only [List.mem_singleton] at hf
    subst hf
    exact ⟨"x.jpg", rfl⟩,
    claim10_dryrun envC2 JSValue.vNull [] ["https://ex.com/x.jpg"] []
      (by
        intro f hf
        simp only [List.mem_singleton] at hf
        subst hf
        exact ⟨"x.jpg", rfl⟩)⟩

/-! ## Claim C6: option resolution precedence -/

/-- C6: for every option leaf path, `getOption` returns the value at that
path in the active extractor's (partial) override when the override
defines it, and otherwise the value at the same path in the merged global
options — each leaf independently, with no need to redeclare the rest of
the structure. -/
theorem claim6_option_resolution (o : OptionsPart) (g : OptionsFull) (lp : OptLeaf) :
    getOption (encodePart o) (encodeFull g) (leafPath lp)
      = (leafPart o lp).getD (leafFull g lp) := by
  rcases o with ⟨sd, fl⟩
  cases lp <;>
    rcases sd with _ | ⟨ro, su⟩ <;>
    rcases fl with _ | ⟨nl, ov, ms⟩ <;>
    (try rcases ro with _ | r) <;>
    (try rcases su with _ | sl) <;>
    (try rcases nl with _ | n) <;>
    (try rcases ov with _ | b) <;>
    (try rcases ms with _ | k) <;>
    rfl

/-! ## Claim C8: the filename tail-segment rule -/

theorem jsSliceNeg_natCast (n : Nat) (l : List String) :
    jsSliceNeg (n : Int) l = if n = 0 then l else (l.reverse.take n).reverse := by
  unfold jsSliceNeg
  by_cases h : n = 0
  · subst h
    simp
  · rw [if_neg (by omega), if_neg h]
    have ht : ((n : Int)).toNat = n := Int.toNat_natCast n
    rw [ht]
    have h2 : l.length - min n l.length = l.length - n := by omega
    rw [h2, ← List.rtake_eq_reverse_take_reverse]
    rfl

/-- C8: the filename is the stripped URL's last `nameLevel` `/`-segments
joined by `_` (`nameLevel = 0` keeping all segments): in particular
`b_c.jpg` for the example URL at `nameLevel = 2` and `ex.com_a_b_c.jpg`
at `nameLevel = 0`; and for every natural `nameLevel` and URL,
`_getFilename` agrees with the rule as the specification words it. -/
theorem claim8_filename_tail_rule :
    _getFilename JSValue.vNull (globalWithNameLevel 2) "https://ex.com/a/b/c.jpg?x=1"
      = Except.ok "b_c.jpg"
    ∧ _getFilename JSValue.vNull (globalWithNameLevel 0) "https://ex.com/a/b/c.jpg?x=1"
      = Except.ok "ex.com_a_b_c.jpg"
    ∧ ∀ (n : Nat) (url : String),
        _getFilename JSValue.vNull (globalWithNameLevel (n : Int)) url
          = specFilename n url := by
  refine ⟨rfl, rfl, ?_⟩
  intro n url
  have hopt : asInt (getOption JSValue.vNull (globalWithNameLevel (n : Int))
      ["file", "nameLevel"]) = (n : Int) := rfl
  simp only [_getFilename, specFilename, hopt, jsSliceNeg_natCast]
